import Mathlib

/-!
UART ring buffer driver (`uart_ring_buffer.c`)

A shallow embedding of the driver and the properties proved about it.

Modelling conventions.

* A pointer is the address it holds, a natural number.  `++` on a pointer is `+ 1`.
* An `unsigned char` is carried as a natural number.  Every byte store of the
  driver copies an `unsigned char` into an `unsigned char`, so no truncation
  occurs on the data path; the one narrowing store after an `int` operation
  (`&= ~UART_INT_TX`) is written with its explicit `% 256`.
* RAM is `mem : Nat → Nat`, from address to byte.  The arrays `uart_tx` and
  `uart_rx` are represented by their addresses; their contents live in `mem`.
* The control block `arm_uart_bufs` and the two register structs are held as
  typed fields of the state, not inside `mem`.
* Each memory-mapped register is a cell of its own, reached through the
  pointer of the same name.  `control`, `intr_mask` and `intr_ack` are cells
  holding a value.  The UART status register and the interrupt status register
  are volatile: the `k`-th read returns `hw_status k`, respectively
  `hw_intr_status k`.  The receive data register pops the hardware FIFO: the
  `k`-th read returns `hw_rx k`.  Bytes written to the transmit data register
  are appended to `tx_written`.  The addresses bound by `init_arm_uart_bufs`
  are kept in the two register structs; the section on register regions shows
  that, taken with the width of their pointer types, three of them overlap, so
  the separate cells are an idealisation of the register file.
* The source uses the names `uart_tx` and `uart_rx` twice, for the two arrays and for
  the two interrupt subroutines.  Here the arrays are the fields `State.uart_tx` and
  `State.uart_rx`, the subroutines the functions `uart_tx` and `uart_rx`.
* `len` of `uart_send` is a natural number (the interface takes `len >= 0`).
* The two hardware driven loops (`uart_tx`, `uart_rx`) take fuel, one unit per
  evaluation of the loop condition, and return `none` when it runs out.
-/

/-! ## Constants -/

/-- Mask value of the transmit interrupt in the interrupt registers. -/
def UART_INT_TX : Nat := 0x08
/-- Mask value of the receive interrupt in the interrupt registers. -/
def UART_INT_RX : Nat := 0x04
/-- Status bit: data received in the receive register. -/
def DATA_READY : Nat := 0x10
/-- Status bit: the hardware transmit fifo is full. -/
def XMT_FIFO_FULL : Nat := 0x40
/-- Status and control bit: the hardware transmit fifo is empty. -/
def XMT_FIFO_EMPTY : Nat := 0x80
/-- Size of a software fifo buffer. -/
def UART_BUF_SIZE : Nat := 1024
/-- Index of the transmit fifo in `arm_uart_bufs`. -/
def TX_FIFO : Fin 2 := 0
/-- Index of the receive fifo in `arm_uart_bufs`. -/
def RX_FIFO : Fin 2 := 1

/-! ## Data model -/

/-- The `struct interrupt_registers`: three register addresses. -/
structure interrupt_registers where
  intr_mask : Nat
  intr_status : Nat
  intr_ack : Nat

/-- The `struct uart_registers`: four register addresses. -/
structure uart_registers where
  control : Nat
  status : Nat
  tx_data : Nat
  rx_data : Nat

/-- The fifo control structure `struct _arm_uart_buf`; `end_` is the field `end`. -/
structure arm_uart_buf where
  beg : Nat
  end_ : Nat
  read_ptr : Nat
  write_ptr : Nat

/-- The driver state together with the hardware it talks to. -/
structure State where
  /-- The struct behind `uart_registers_ptr`. -/
  uart_registers_ptr : uart_registers
  /-- The struct behind `interrupt_registers_ptr`. -/
  interrupt_registers_ptr : interrupt_registers
  /-- Address of the array `uart_tx`. -/
  uart_tx : Nat
  /-- Address of the array `uart_rx`. -/
  uart_rx : Nat
  /-- The two fifo control structures. -/
  arm_uart_bufs : Fin 2 → arm_uart_buf
  /-- RAM, address to byte. -/
  mem : Nat → Nat
  /-- Contents of the control register. -/
  control : Nat
  /-- Contents of the interrupt mask register. -/
  intr_mask : Nat
  /-- Contents of the interrupt acknowledge register. -/
  intr_ack : Nat
  /-- Value returned by the `k`-th read of the interrupt status register. -/
  hw_intr_status : Nat → Nat
  /-- Number of reads of the interrupt status register so far. -/
  intr_status_reads : Nat
  /-- Value returned by the `k`-th read of the UART status register. -/
  hw_status : Nat → Nat
  /-- Number of reads of the UART status register so far. -/
  status_reads : Nat
  /-- Byte returned by the `k`-th read of the receive data register. -/
  hw_rx : Nat → Nat
  /-- Number of reads of the receive data register so far. -/
  rx_reads : Nat
  /-- Bytes written to the transmit data register so far, oldest first. -/
  tx_written : List Nat

/-! ## Primitive accesses -/

/-- Assignment to `arm_uart_bufs[index]`. -/
def setBuf (index : Fin 2) (b : arm_uart_buf) (s : State) : State :=
  { s with arm_uart_bufs := fun i => if i = index then b else s.arm_uart_bufs i }

/-- The store `*p = v` of one byte into RAM. -/
def store (p v : Nat) (s : State) : State :=
  { s with mem := fun a => if a = p then v else s.mem a }

/-- One read of `*uart_registers_ptr->status`. -/
def readStatus (s : State) : Nat × State :=
  (s.hw_status s.status_reads, { s with status_reads := s.status_reads + 1 })

/-- One read of `*interrupt_registers_ptr->intr_status`. -/
def readIntrStatus (s : State) : Nat × State :=
  (s.hw_intr_status s.intr_status_reads,
   { s with intr_status_reads := s.intr_status_reads + 1 })

/-- One read of `*uart_registers_ptr->rx_data`. -/
def readRxData (s : State) : Nat × State :=
  (s.hw_rx s.rx_reads, { s with rx_reads := s.rx_reads + 1 })

/-- The store `*uart_registers_ptr->tx_data = c`. -/
def writeTxData (c : Nat) (s : State) : State :=
  { s with tx_written := s.tx_written ++ [c] }

/-! ## The driver -/

/-- The body of `switch (i)` in `init_arm_uart_bufs`, with `sptr = &arm_uart_bufs[i]`. -/
def init_case (i : Fin 2) (s : State) : State :=
  if i = 0 then
    setBuf i { beg := s.uart_tx, end_ := s.uart_tx + UART_BUF_SIZE - 1,
               read_ptr := s.uart_tx, write_ptr := s.uart_tx } s
  else
    setBuf i { beg := s.uart_rx, end_ := s.uart_rx + UART_BUF_SIZE - 1,
               read_ptr := s.uart_rx, write_ptr := s.uart_rx } s

/-- The function `init_arm_uart_bufs`: binds the register addresses and resets
both fifo control structures (`for (i = 0; i < 2; i++)`). -/
def init_arm_uart_bufs (s : State) : State :=
  let s1 : State :=
    { s with
      uart_registers_ptr :=
        { control := 0x80030000, status := 0x80030002,
          tx_data := 0x80030004, rx_data := 0x80030006 }
      interrupt_registers_ptr :=
        { intr_mask := 0x800a002c, intr_status := 0x800a0030, intr_ack := 0x800a0034 } }
  init_case 1 (init_case 0 s1)

/-- The function `next_ptr`: returns the write pointer and advances it, wrapping
from `end` to `beg`. -/
def next_ptr (index : Fin 2) (s : State) : Nat × State :=
  let b := s.arm_uart_bufs index
  let rtp := b.write_ptr
  if b.write_ptr = b.end_ then
    (rtp, setBuf index { b with write_ptr := b.beg } s)
  else
    (rtp, setBuf index { b with write_ptr := b.write_ptr + 1 } s)

/-- One push as both producers perform it: `p = next_ptr(index); *p = v;`. -/
def push (index : Fin 2) (v : Nat) (s : State) : State :=
  store (next_ptr index s).1 v (next_ptr index s).2

/-- The loop `while (len--)` of `uart_send`; `*buf++` past the supplied bytes reads 0. -/
def uart_send_loop : List Nat → Nat → State → State
  | _, 0, s => s
  | buf, len + 1, s => uart_send_loop buf.tail len (push TX_FIFO (buf.headD 0) s)

/-- The function `uart_send`: returns the status and the new state. -/
def uart_send (buf : List Nat) (len : Nat) (s : State) : Int × State :=
  let s1 := uart_send_loop buf len s
  let s2 : State := { s1 with control := s1.control ||| XMT_FIFO_EMPTY }
  let s3 : State := { s2 with intr_mask := s2.intr_mask ||| UART_INT_TX }
  (0, s3)

/-- The function `bufRead`: returns the flag, the byte stored through `buf`, and
the new state. -/
def bufRead (index : Fin 2) (s : State) : Int × Nat × State :=
  let b := s.arm_uart_bufs index
  if b.read_ptr = b.write_ptr then
    (0, s.mem b.read_ptr, store b.read_ptr 0 s)
  else
    let c := s.mem b.read_ptr
    let s1 := store b.read_ptr 0 s
    if b.read_ptr = b.end_ then
      (1, c, setBuf index { b with read_ptr := b.beg } s1)
    else
      (1, c, setBuf index { b with read_ptr := b.read_ptr + 1 } s1)

/-- The `while` loop of `uart_tx`, entered with the current value of `ret`;
returns the final `ret` and state. -/
def uart_tx_loop : Nat → Int → State → Option (Int × State)
  | 0, _, _ => none
  | fuel + 1, ret, s =>
    let s1 := (readStatus s).2
    if (readStatus s).1 &&& XMT_FIFO_FULL = 0 ∧ ret ≠ 0 then
      let r := bufRead TX_FIFO s1
      if r.1 ≠ 0 then
        uart_tx_loop fuel r.1 (writeTxData r.2.1 r.2.2)
      else
        uart_tx_loop fuel r.1 r.2.2
    else
      some (ret, s1)

/-- The function `uart_tx`, the transmit subroutine of the interrupt service. -/
def uart_tx (fuel : Nat) (s : State) : Option State :=
  let s1 := (readStatus s).2
  if (readStatus s).1 &&& XMT_FIFO_EMPTY ≠ 0 then
    match uart_tx_loop fuel 1 s1 with
    | none => none
    | some (ret, s2) =>
      if ret = 0 then
        some { s2 with intr_mask := (s2.intr_mask &&& (0xFFFFFFFF - UART_INT_TX)) % 256 }
      else
        some s2
  else
    some s1

/-- The body of the `while` loop of `uart_rx`:
`rx_ptr = next_ptr(RX_FIFO); *rx_ptr = *uart_registers_ptr->rx_data;`. -/
def uart_rx_body (s : State) : State :=
  let s2 := (next_ptr RX_FIFO s).2
  store (next_ptr RX_FIFO s).1 (readRxData s2).1 (readRxData s2).2

/-- The function `uart_rx`, the receive subroutine of the interrupt service. -/
def uart_rx : Nat → State → Option State
  | 0, _ => none
  | fuel + 1, s =>
    if (readStatus s).1 &&& DATA_READY ≠ 0 then
      uart_rx fuel (uart_rx_body (readStatus s).2)
    else
      some (readStatus s).2

/-- The function `uart_irq_interrupt`; `vector` is not used by the body. -/
def uart_irq_interrupt (fuel : Nat) (_vector : Nat) (s : State) : Option State :=
  let status := (readIntrStatus s).1
  let s0 := (readIntrStatus s).2
  let afterRx : Option State :=
    if status &&& UART_INT_RX ≠ 0 then
      uart_rx fuel { s0 with intr_ack := s0.intr_ack ||| UART_INT_RX }
    else
      some s0
  match afterRx with
  | none => none
  | some s1 =>
    if status &&& UART_INT_TX ≠ 0 then
      uart_tx fuel { s1 with intr_ack := s1.intr_ack ||| UART_INT_TX }
    else
      some s1

/-! ## Runs of pushes and pops -/

/-- The bytes of `l` pushed one after another, first element first. -/
def pushes (index : Fin 2) : List Nat → State → State
  | [], s => s
  | v :: l, s => pushes index l (push index v s)

/-- The result of `k` consecutive calls of `bufRead`: the (flag, byte) pairs in call
order, and the final state. -/
def pops (index : Fin 2) : Nat → State → List (Int × Nat) × State
  | 0, s => ([], s)
  | k + 1, s =>
    (((bufRead index s).1, (bufRead index s).2.1) :: (pops index k (bufRead index s).2.2).1,
     (pops index k (bufRead index s).2.2).2)

/-- The addresses returned by `next_ptr` during the pushes of `l`, in call order. -/
def pushSlots (index : Fin 2) : List Nat → State → List Nat
  | [], _ => []
  | v :: l, s => (next_ptr index s).1 :: pushSlots index l (push index v s)

/-- The addresses `bufRead` reads its byte from during `k` consecutive calls, in call order. -/
def popSlots (index : Fin 2) : Nat → State → List Nat
  | 0, _ => []
  | k + 1, s => (s.arm_uart_bufs index).read_ptr :: popSlots index k (bufRead index s).2.2

/-! ## Predicates on fifo control structures -/

/-- The successor of address `p` in the ring of `b`: `beg` after `end`, else `p + 1`. -/
def nxt (b : arm_uart_buf) (p : Nat) : Nat :=
  if p = b.end_ then b.beg else p + 1

/-- The fifo spans `UART_BUF_SIZE` slots and both cursors are inside it. -/
def WF (b : arm_uart_buf) : Prop :=
  b.end_ = b.beg + (UART_BUF_SIZE - 1) ∧
  b.beg ≤ b.read_ptr ∧ b.read_ptr ≤ b.end_ ∧
  b.beg ≤ b.write_ptr ∧ b.write_ptr ≤ b.end_

instance (b : arm_uart_buf) : Decidable (WF b) := by
  unfold WF; infer_instance

/-- The address of the `i`-th slot counted from the read cursor, with wraparound. -/
def slot (b : arm_uart_buf) (i : Nat) : Nat :=
  b.beg + (b.read_ptr - b.beg + i) % UART_BUF_SIZE

/-- Fifo `index` of `s` is well formed and holds exactly the bytes `q`, oldest first,
from the read cursor up to the write cursor. -/
def Holds (s : State) (index : Fin 2) (q : List Nat) : Prop :=
  WF (s.arm_uart_bufs index) ∧ q.length < UART_BUF_SIZE ∧
  (s.arm_uart_bufs index).write_ptr = slot (s.arm_uart_bufs index) q.length ∧
  ∀ i, i < q.length → s.mem (slot (s.arm_uart_bufs index) i) = q.getD i 0

/-! ## Interleavings of whole operations -/

/-- One fifo operation of an interleaving in which every operation runs to completion:
a push by the producer or a call of `bufRead` by the consumer. -/
inductive FifoOp where
  | push (v : Nat)
  | pop

/-- The operations of `ops` applied one after another to fifo `index`: the (flag, byte)
pairs returned by the pops, in call order, and the final state. -/
def runOps (index : Fin 2) : List FifoOp → State → List (Int × Nat) × State
  | [], s => ([], s)
  | FifoOp.push v :: ops, s => runOps index ops (push index v s)
  | FifoOp.pop :: ops, s =>
    (((bufRead index s).1, (bufRead index s).2.1) :: (runOps index ops (bufRead index s).2.2).1,
     (runOps index ops (bufRead index s).2.2).2)

/-- The bytes pushed by `ops`, in order. -/
def pushedBytes : List FifoOp → List Nat
  | [] => []
  | FifoOp.push v :: ops => v :: pushedBytes ops
  | FifoOp.pop :: ops => pushedBytes ops

/-- The bytes returned by the successful pops (flag not 0) among `rs`, in order. -/
def successfulBytes : List (Int × Nat) → List Nat
  | [] => []
  | r :: rs => if r.1 ≠ 0 then r.2 :: successfulBytes rs else successfulBytes rs

/-- The queue of pushed-but-not-yet-popped bytes after one operation. -/
def queueStep (q : List Nat) : FifoOp → List Nat
  | FifoOp.push v => q ++ [v]
  | FifoOp.pop => q.tail

/-- Starting with the bytes `q` unpopped, the number of pushed-but-not-yet-popped bytes
stays at most `cap` before, between and after the operations of `ops`. -/
def withinCapacity (cap : Nat) : List Nat → List FifoOp → Bool
  | q, [] => decide (q.length ≤ cap)
  | q, op :: ops => decide (q.length ≤ cap) && withinCapacity cap (queueStep q op) ops

/-! ## The abstract queue of the refinement -/

/-- The abstract FIFO queue popped once: flag 1 with the oldest byte for a non-empty
queue, flag 0 and no byte for the empty queue. -/
def queuePop (q : List Nat) : Int × Option Nat :=
  match q with
  | [] => (0, none)
  | a :: _ => (1, some a)

/-- The abstract FIFO queue run on `ops`, started with the queue `q`: the result of
every pop, in order. -/
def queueResults : List Nat → List FifoOp → List (Int × Option Nat)
  | _, [] => []
  | q, FifoOp.push v :: ops => queueResults (queueStep q (FifoOp.push v)) ops
  | q, FifoOp.pop :: ops => queuePop q :: queueResults (queueStep q FifoOp.pop) ops

/-- The abstract queue left by `ops`, started with the queue `q`: a push appends, a pop
removes the oldest byte, a pop of the empty queue removes nothing. -/
def queueAfter : List Nat → List FifoOp → List Nat
  | q, [] => q
  | q, op :: ops => queueAfter (queueStep q op) ops

/-- What the caller of `bufRead` may rely on: the flag, and the byte when the flag is
not 0 (with flag 0 the byte is whatever the slot at the read cursor held). -/
def observed (r : Int × Nat) : Int × Option Nat :=
  (r.1, if r.1 ≠ 0 then some r.2 else none)

/-! ## The bytes queued in a fifo -/

/-- The number of slots from the read cursor up to the write cursor, with wraparound. -/
def occupancy (b : arm_uart_buf) : Nat :=
  (b.write_ptr + UART_BUF_SIZE - b.read_ptr) % UART_BUF_SIZE

/-- The bytes stored from the read cursor up to the write cursor, oldest first. -/
def queued (index : Fin 2) (s : State) : List Nat :=
  (List.range (occupancy (s.arm_uart_bufs index))).map
    (fun i => s.mem (slot (s.arm_uart_bufs index) i))

/-! ## The cursor bounds invariant -/

/-- The address of the array that belongs to fifo `index`: `uart_tx` for `TX_FIFO`,
`uart_rx` for `RX_FIFO`. -/
def arrayOf (s : State) (index : Fin 2) : Nat :=
  if index = TX_FIFO then s.uart_tx else s.uart_rx

/-- Every fifo starts at its own array, ends 1023 bytes further, and has both cursors
between `beg` and `end`. -/
def CursorInv (s : State) : Prop :=
  ∀ index : Fin 2, (s.arm_uart_bufs index).beg = arrayOf s index ∧ WF (s.arm_uart_bufs index)

/-- From `s` to `t` the arrays stay where they are, no `beg` and no `end` is modified,
and a fifo with its cursors in bounds keeps them in bounds. -/
def FrameKept (s t : State) : Prop :=
  t.uart_tx = s.uart_tx ∧ t.uart_rx = s.uart_rx ∧
  ∀ index : Fin 2,
    (t.arm_uart_bufs index).beg = (s.arm_uart_bufs index).beg ∧
    (t.arm_uart_bufs index).end_ = (s.arm_uart_bufs index).end_ ∧
    (WF (s.arm_uart_bufs index) → WF (t.arm_uart_bufs index))

/-! ## Register regions -/

/-- The width in bytes of an access through an `unsigned int *` on the ARM-9. -/
def sizeof_unsigned_int : Nat := 4

/-- The width in bytes of an access through an `unsigned char *`. -/
def sizeof_unsigned_char : Nat := 1

/-- The bytes `addr`, ..., `addr + width - 1` touched by an access to a register. -/
structure Region where
  addr : Nat
  width : Nat

/-- Two regions have a byte in common. -/
def Region.overlaps (a b : Region) : Bool :=
  decide (a.addr < b.addr + b.width ∧ b.addr < a.addr + a.width)

/-- The seven registers as bound in `s`, each with the access width of its pointer
type, in the order control, status, tx_data, rx_data, intr_mask, intr_status, intr_ack. -/
def registerRegions (s : State) : List Region :=
  [ { addr := s.uart_registers_ptr.control, width := sizeof_unsigned_int },
    { addr := s.uart_registers_ptr.status, width := sizeof_unsigned_int },
    { addr := s.uart_registers_ptr.tx_data, width := sizeof_unsigned_char },
    { addr := s.uart_registers_ptr.rx_data, width := sizeof_unsigned_char },
    { addr := s.interrupt_registers_ptr.intr_mask, width := sizeof_unsigned_char },
    { addr := s.interrupt_registers_ptr.intr_status, width := sizeof_unsigned_char },
    { addr := s.interrupt_registers_ptr.intr_ack, width := sizeof_unsigned_char } ]

/-! ## A concrete machine for worked runs -/

/-- A machine before initialisation: `uart_tx` at 0x20000000, `uart_rx` right behind it,
all registers and RAM zero, a status register that always reads `XMT_FIFO_EMPTY`. -/
def bootState : State :=
  { uart_registers_ptr := { control := 0, status := 0, tx_data := 0, rx_data := 0 }
    interrupt_registers_ptr := { intr_mask := 0, intr_status := 0, intr_ack := 0 }
    uart_tx := 0x20000000
    uart_rx := 0x20000400
    arm_uart_bufs := fun _ => { beg := 0, end_ := 0, read_ptr := 0, write_ptr := 0 }
    mem := fun _ => 0
    control := 0
    intr_mask := 0
    intr_ack := 0
    hw_intr_status := fun _ => 0
    intr_status_reads := 0
    hw_status := fun _ => XMT_FIFO_EMPTY
    status_reads := 0
    hw_rx := fun _ => 0
    rx_reads := 0
    tx_written := [] }

/-- The initialised machine after `uart_send("A", 1)`. -/
def armedState : State := (uart_send [65] 1 (init_arm_uart_bufs bootState)).2

/-- The machine of `armedState` with a hardware transmit fifo that takes one byte and
then reports full: the status reads are `XMT_FIFO_EMPTY`, 0, then `XMT_FIFO_FULL`. -/
def lateFullState : State :=
  { armedState with
    hw_status := fun k => if k = 0 then XMT_FIFO_EMPTY else if k = 1 then 0 else XMT_FIFO_FULL }

/-- The initialised machine with a receiver that holds "XY": `DATA_READY` is reported on
the first two status reads only, and the receive data register yields 88 then 89. -/
def rxState : State :=
  { init_arm_uart_bufs bootState with
    hw_status := fun k => if k < 2 then DATA_READY else 0
    hw_rx := fun k => if k = 0 then 88 else 89 }

/-- The machine of `armedState` in the middle of a second call `uart_send("B", 1)`: the
application has returned from `next_ptr(TX_FIFO)` and has not yet stored the byte, and
the transmit interrupt armed by the first call is pending. -/
def midSendState : State :=
  { (next_ptr TX_FIFO armedState).2 with hw_intr_status := fun _ => UART_INT_TX }

/-! ## Field-by-field description of the primitive operations -/

theorem push_eq (index : Fin 2) (v : Nat) (s : State) :
    push index v s =
      { s with
        arm_uart_bufs := fun i =>
          if i = index then
            { s.arm_uart_bufs index with
              write_ptr := nxt (s.arm_uart_bufs index) (s.arm_uart_bufs index).write_ptr }
          else s.arm_uart_bufs i
        mem := fun a => if a = (s.arm_uart_bufs index).write_ptr then v else s.mem a } := by
  simp only [push, next_ptr, nxt, store, setBuf]
  split_ifs <;> rfl

theorem push_buf_self (index : Fin 2) (v : Nat) (s : State) :
    (push index v s).arm_uart_bufs index =
      { s.arm_uart_bufs index with
        write_ptr := nxt (s.arm_uart_bufs index) (s.arm_uart_bufs index).write_ptr } := by
  rw [push_eq]; simp

theorem push_mem (index : Fin 2) (v : Nat) (s : State) (a : Nat) :
    (push index v s).mem a = if a = (s.arm_uart_bufs index).write_ptr then v else s.mem a := by
  rw [push_eq]

theorem next_ptr_fst (index : Fin 2) (s : State) :
    (next_ptr index s).1 = (s.arm_uart_bufs index).write_ptr := by
  simp only [next_ptr]
  split_ifs <;> rfl

theorem bufRead_flag (index : Fin 2) (s : State) :
    (bufRead index s).1 =
      if (s.arm_uart_bufs index).read_ptr = (s.arm_uart_bufs index).write_ptr then 0 else 1 := by
  simp only [bufRead]
  split_ifs <;> rfl

theorem bufRead_byte (index : Fin 2) (s : State) :
    (bufRead index s).2.1 = s.mem (s.arm_uart_bufs index).read_ptr := by
  simp only [bufRead]
  split_ifs <;> rfl

theorem bufRead_state (index : Fin 2) (s : State) :
    (bufRead index s).2.2 =
      { s with
        arm_uart_bufs :=
          if (s.arm_uart_bufs index).read_ptr = (s.arm_uart_bufs index).write_ptr then
            s.arm_uart_bufs
          else fun i =>
            if i = index then
              { s.arm_uart_bufs index with
                read_ptr := nxt (s.arm_uart_bufs index) (s.arm_uart_bufs index).read_ptr }
            else s.arm_uart_bufs i
        mem := fun a => if a = (s.arm_uart_bufs index).read_ptr then 0 else s.mem a } := by
  simp only [bufRead, nxt, store, setBuf]
  split_ifs <;> rfl

theorem bufRead_mem (index : Fin 2) (s : State) (a : Nat) :
    (bufRead index s).2.2.mem a =
      if a = (s.arm_uart_bufs index).read_ptr then 0 else s.mem a := by
  rw [bufRead_state]

theorem bufRead_buf_empty (index : Fin 2) (s : State)
    (h : (s.arm_uart_bufs index).read_ptr = (s.arm_uart_bufs index).write_ptr) :
    (bufRead index s).2.2.arm_uart_bufs = s.arm_uart_bufs := by
  rw [bufRead_state]; simp [h]

theorem bufRead_buf_self (index : Fin 2) (s : State)
    (h : (s.arm_uart_bufs index).read_ptr ≠ (s.arm_uart_bufs index).write_ptr) :
    (bufRead index s).2.2.arm_uart_bufs index =
      { s.arm_uart_bufs index with
        read_ptr := nxt (s.arm_uart_bufs index) (s.arm_uart_bufs index).read_ptr } := by
  rw [bufRead_state]; simp [h]

/-! ## The representation invariant under push and pop -/

theorem Holds_push (index : Fin 2) (v : Nat) (s : State) (q : List Nat)
    (h : Holds s index q) (hq : q.length + 1 < UART_BUF_SIZE) :
    Holds (push index v s) index (q ++ [v]) := by
  obtain ⟨⟨he, h1, h2, h3, h4⟩, _, hw, hm⟩ := h
  unfold Holds WF
  rw [push_buf_self]
  simp only [nxt, List.length_append, List.length_singleton, slot, UART_BUF_SIZE] at *
  refine ⟨⟨he, h1, h2, ?_, ?_⟩, by omega, ?_, ?_⟩
  · split_ifs <;> omega
  · split_ifs <;> omega
  · split_ifs <;> omega
  · intro i hi
    rw [push_mem]
    by_cases hiq : i = q.length
    · subst hiq
      rw [if_pos (by omega)]
      simp
    · rw [if_neg (by omega), hm i (by omega)]
      rw [List.getD_append _ _ _ _ (by omega)]

theorem Holds_pop (index : Fin 2) (a : Nat) (s : State) (q : List Nat)
    (h : Holds s index (a :: q)) :
    (bufRead index s).1 = 1 ∧ (bufRead index s).2.1 = a ∧
      Holds (bufRead index s).2.2 index q := by
  obtain ⟨⟨he, h1, h2, h3, h4⟩, hl, hw, hm⟩ := h
  have hne : (s.arm_uart_bufs index).read_ptr ≠ (s.arm_uart_bufs index).write_ptr := by
    simp only [slot, UART_BUF_SIZE, List.length_cons] at *
    omega
  refine ⟨by rw [bufRead_flag, if_neg hne], ?_, ?_⟩
  · rw [bufRead_byte]
    have := hm 0 (by simp)
    simp only [slot, UART_BUF_SIZE, List.length_cons] at *
    have e : (s.arm_uart_bufs index).beg +
        ((s.arm_uart_bufs index).read_ptr - (s.arm_uart_bufs index).beg + 0) % 1024
        = (s.arm_uart_bufs index).read_ptr := by omega
    rw [e] at this
    simpa using this
  · unfold Holds WF
    rw [bufRead_buf_self index s hne]
    simp only [nxt, slot, UART_BUF_SIZE, List.length_cons] at *
    refine ⟨⟨he, ?_, ?_, h3, h4⟩, by omega, ?_, ?_⟩
    · split_ifs <;> omega
    · split_ifs <;> omega
    · split_ifs <;> omega
    · intro i hi
      rw [bufRead_mem, if_neg (by split_ifs <;> omega)]
      have := hm (i + 1) (by omega)
      have e : (s.arm_uart_bufs index).beg +
          ((if (s.arm_uart_bufs index).read_ptr = (s.arm_uart_bufs index).end_ then
              (s.arm_uart_bufs index).beg
            else (s.arm_uart_bufs index).read_ptr + 1) - (s.arm_uart_bufs index).beg + i) % 1024
          = (s.arm_uart_bufs index).beg +
            ((s.arm_uart_bufs index).read_ptr - (s.arm_uart_bufs index).beg + (i + 1)) % 1024 := by
        split_ifs <;> omega
      rw [e, this]
      simp

theorem Holds_pop_nil (index : Fin 2) (s : State) (h : Holds s index []) :
    (bufRead index s).1 = 0 ∧ Holds (bufRead index s).2.2 index [] := by
  obtain ⟨⟨he, h1, h2, h3, h4⟩, hl, hw, _⟩ := h
  have heq : (s.arm_uart_bufs index).read_ptr = (s.arm_uart_bufs index).write_ptr := by
    simp only [slot, UART_BUF_SIZE, List.length_nil] at *
    omega
  refine ⟨by rw [bufRead_flag, if_pos heq], ?_⟩
  unfold Holds
  rw [bufRead_buf_empty index s heq]
  exact ⟨⟨he, h1, h2, h3, h4⟩, hl, hw, fun i hi => absurd hi (by simp)⟩

theorem Holds_congr (s t : State) (index : Fin 2) (q : List Nat)
    (hb : t.arm_uart_bufs = s.arm_uart_bufs) (hm : t.mem = s.mem) (h : Holds s index q) :
    Holds t index q := by
  unfold Holds at *
  rw [hb, hm]
  exact h

theorem Holds_nil (s : State) (index : Fin 2) (hwf : WF (s.arm_uart_bufs index))
    (he : (s.arm_uart_bufs index).read_ptr = (s.arm_uart_bufs index).write_ptr) :
    Holds s index [] := by
  refine ⟨hwf, by simp [UART_BUF_SIZE], ?_, fun i hi => absurd hi (by simp)⟩
  obtain ⟨h0, h1, h2, _, _⟩ := hwf
  simp only [slot, UART_BUF_SIZE, List.length_nil] at *
  omega

theorem Holds_empty_iff (s : State) (index : Fin 2) (q : List Nat) (h : Holds s index q) :
    (s.arm_uart_bufs index).read_ptr = (s.arm_uart_bufs index).write_ptr ↔ q = [] := by
  obtain ⟨⟨he, h1, h2, h3, h4⟩, hl, hw, _⟩ := h
  rw [← List.length_eq_zero]
  simp only [slot, UART_BUF_SIZE] at *
  omega

theorem Holds_pushes (index : Fin 2) (l : List Nat) :
    ∀ (s : State) (q : List Nat), Holds s index q → q.length + l.length < UART_BUF_SIZE →
      Holds (pushes index l s) index (q ++ l) := by
  induction l with
  | nil => intro s q h _; simpa [pushes] using h
  | cons v l ih =>
    intro s q h hl
    simp only [List.length_cons] at hl
    have h1 := Holds_push index v s q h (by omega)
    have hlen : (q ++ [v]).length + l.length < UART_BUF_SIZE := by
      simp only [List.length_append, List.length_singleton]
      omega
    have h2 := ih (push index v s) (q ++ [v]) h1 hlen
    simpa [pushes] using h2

theorem pops_Holds (index : Fin 2) (l : List Nat) :
    ∀ (s : State) (r : List Nat), Holds s index (l ++ r) →
      (pops index l.length s).1 = l.map (fun b => ((1 : Int), b)) ∧
      Holds (pops index l.length s).2 index r := by
  induction l with
  | nil => intro s r h; exact ⟨rfl, h⟩
  | cons a l ih =>
    intro s r h
    obtain ⟨hf, hb, hh⟩ := Holds_pop index a s (l ++ r) h
    obtain ⟨h1, h2⟩ := ih _ r hh
    refine ⟨?_, h2⟩
    simp only [List.length_cons, pops, List.map_cons, h1, hf, hb]

theorem pops_add (index : Fin 2) (a b : Nat) :
    ∀ s : State, (pops index (a + b) s).1 =
        (pops index a s).1 ++ (pops index b (pops index a s).2).1 ∧
      (pops index (a + b) s).2 = (pops index b (pops index a s).2).2 := by
  induction a with
  | zero => intro s; simp [pops]
  | succ a ih =>
    intro s
    have e : a + 1 + b = (a + b) + 1 := by omega
    rw [e]
    obtain ⟨h1, h2⟩ := ih (bufRead index s).2.2
    simp only [pops, h1, h2, List.cons_append, and_self]

theorem pops_head (index : Fin 2) (k : Nat) (s : State) :
    (pops index (k + 1) s).1.head? = some ((bufRead index s).1, (bufRead index s).2.1) := rfl

/-- Pops of an empty fifo: every flag is 0 and the control structures are untouched. -/
theorem pops_empty (index : Fin 2) (k : Nat) :
    ∀ s : State, (s.arm_uart_bufs index).read_ptr = (s.arm_uart_bufs index).write_ptr →
      (pops index k s).1.map Prod.fst = List.replicate k 0 ∧
      (pops index k s).2.arm_uart_bufs = s.arm_uart_bufs := by
  induction k with
  | zero => intro s _; exact ⟨rfl, rfl⟩
  | succ k ih =>
    intro s h
    have hb := bufRead_buf_empty index s h
    obtain ⟨h1, h2⟩ := ih (bufRead index s).2.2 (by rw [hb]; exact h)
    refine ⟨?_, by simp only [pops, h2, hb]⟩
    simp only [pops, List.map_cons, h1, List.replicate_succ, bufRead_flag, if_pos h]

/-! ## Cursors after an unbounded run of pushes -/

theorem WF_push (index : Fin 2) (v : Nat) (s : State) (h : WF (s.arm_uart_bufs index)) :
    WF ((push index v s).arm_uart_bufs index) := by
  obtain ⟨he, h1, h2, h3, h4⟩ := h
  unfold WF
  rw [push_buf_self]
  simp only [nxt, UART_BUF_SIZE] at *
  refine ⟨he, h1, h2, ?_, ?_⟩ <;> split_ifs <;> omega

theorem pushes_buf (index : Fin 2) (l : List Nat) :
    ∀ s : State, WF (s.arm_uart_bufs index) →
      (pushes index l s).arm_uart_bufs index =
        { s.arm_uart_bufs index with
          write_ptr := (s.arm_uart_bufs index).beg +
            ((s.arm_uart_bufs index).write_ptr - (s.arm_uart_bufs index).beg + l.length)
              % UART_BUF_SIZE } := by
  induction l with
  | nil =>
    intro s h
    obtain ⟨he, h1, h2, h3, h4⟩ := h
    simp only [pushes, List.length_nil, UART_BUF_SIZE] at *
    have e : (s.arm_uart_bufs index).beg +
        ((s.arm_uart_bufs index).write_ptr - (s.arm_uart_bufs index).beg + 0) % 1024
        = (s.arm_uart_bufs index).write_ptr := by omega
    rw [e]
  | cons v l ih =>
    intro s h
    have h' := WF_push index v s h
    obtain ⟨he, h1, h2, h3, h4⟩ := h
    simp only [pushes]
    rw [ih _ h', push_buf_self]
    simp only [nxt, List.length_cons, UART_BUF_SIZE] at *
    congr 1
    split_ifs <;> omega

/-- After exactly `UART_BUF_SIZE` pushes into an empty fifo the cursors coincide again. -/
theorem bufRead_after_full (index : Fin 2) (l : List Nat) (s : State)
    (hwf : WF (s.arm_uart_bufs index))
    (he : (s.arm_uart_bufs index).read_ptr = (s.arm_uart_bufs index).write_ptr)
    (hl : l.length = UART_BUF_SIZE) :
    ((pushes index l s).arm_uart_bufs index).read_ptr =
      ((pushes index l s).arm_uart_bufs index).write_ptr := by
  rw [pushes_buf index l s hwf]
  obtain ⟨h0, h1, h2, h3, h4⟩ := hwf
  simp only [hl, UART_BUF_SIZE] at *
  omega

/-! ## Initialisation -/

theorem init_buf_tx (s : State) :
    (init_arm_uart_bufs s).arm_uart_bufs TX_FIFO =
      { beg := s.uart_tx, end_ := s.uart_tx + UART_BUF_SIZE - 1,
        read_ptr := s.uart_tx, write_ptr := s.uart_tx } := by
  simp [init_arm_uart_bufs, init_case, setBuf, TX_FIFO]

theorem init_buf_rx (s : State) :
    (init_arm_uart_bufs s).arm_uart_bufs RX_FIFO =
      { beg := s.uart_rx, end_ := s.uart_rx + UART_BUF_SIZE - 1,
        read_ptr := s.uart_rx, write_ptr := s.uart_rx } := by
  simp [init_arm_uart_bufs, init_case, setBuf, RX_FIFO]

theorem init_WF (s : State) (index : Fin 2) :
    WF ((init_arm_uart_bufs s).arm_uart_bufs index) := by
  have hi : index = TX_FIFO ∨ index = RX_FIFO := by
    unfold TX_FIFO RX_FIFO; omega
  rcases hi with h | h <;> subst h
  · rw [init_buf_tx]; simp only [WF, UART_BUF_SIZE]; omega
  · rw [init_buf_rx]; simp only [WF, UART_BUF_SIZE]; omega

theorem init_empty (s : State) (index : Fin 2) :
    ((init_arm_uart_bufs s).arm_uart_bufs index).read_ptr =
      ((init_arm_uart_bufs s).arm_uart_bufs index).write_ptr := by
  have hi : index = TX_FIFO ∨ index = RX_FIFO := by
    unfold TX_FIFO RX_FIFO; omega
  rcases hi with h | h <;> subst h
  · rw [init_buf_tx]
  · rw [init_buf_rx]

/-! ## C1: FIFO ordering -/

/-- C1, as amended: starting from an empty well-formed buffer, for every N ≤ 1023 and
every sequence of N bytes, N pushes followed by N pops make every pop return flag 1 and
the popped bytes equal the pushed bytes in the same order. -/
theorem fifo_order_below_capacity (index : Fin 2) (s : State) (bytes : List Nat)
    (hwf : WF (s.arm_uart_bufs index))
    (hempty : (s.arm_uart_bufs index).read_ptr = (s.arm_uart_bufs index).write_ptr)
    (hN : bytes.length ≤ 1023) :
    (pops index bytes.length (pushes index bytes s)).1 =
      bytes.map (fun b => ((1 : Int), b)) := by
  have h0 := Holds_nil s index hwf hempty
  have h1 := Holds_pushes index bytes s [] h0 (by simp only [List.length_nil, UART_BUF_SIZE]; omega)
  rw [List.nil_append] at h1
  have h2 := pops_Holds index bytes (pushes index bytes s) [] (by rw [List.append_nil]; exact h1)
  exact h2.1

/-- C1, witness: two bytes through the transmit fifo of a freshly initialised machine. -/
theorem fifo_order_below_capacity_witness :
    (pops TX_FIFO [65, 66].length (pushes TX_FIFO [65, 66] (init_arm_uart_bufs bootState))).1 =
      [65, 66].map (fun b => ((1 : Int), b)) :=
  fifo_order_below_capacity TX_FIFO (init_arm_uart_bufs bootState) [65, 66]
    (by decide) (by decide) (by decide)

/-- C1, counterexample to the claim as stated (every N): with N = 1024 the first pop
after the 1024 pushes already reports empty, so the pops do not return the pushed bytes. -/
theorem fifo_order_fails_at_capacity :
    (pops TX_FIFO 1024 (pushes TX_FIFO (List.replicate 1024 65) (init_arm_uart_bufs bootState))).1
      ≠ (List.replicate 1024 65).map (fun b => ((1 : Int), b)) := by
  intro h
  have hfull := bufRead_after_full TX_FIFO (List.replicate 1024 65) (init_arm_uart_bufs bootState)
    (init_WF _ _) (init_empty _ _) (by rw [List.length_replicate]; rfl)
  have hflag : (bufRead TX_FIFO
      (pushes TX_FIFO (List.replicate 1024 65) (init_arm_uart_bufs bootState))).1 = 0 := by
    rw [bufRead_flag, if_pos hfull]
  have hh := congrArg List.head? h
  rw [List.head?_map, List.head?_replicate, if_neg (by decide)] at hh
  have e1 := pops_head TX_FIFO 1023
    (pushes TX_FIFO (List.replicate 1024 65) (init_arm_uart_bufs bootState))
  rw [hflag] at e1
  have hh2 := e1.symm.trans hh
  simp only [Option.map_some', Option.some.injEq, Prod.mk.injEq] at hh2
  exact absurd hh2.1 (by decide)

/-! ## Frame facts: what push and bufRead leave alone -/

@[simp] theorem bufRead_intr_mask (index : Fin 2) (s : State) :
    (bufRead index s).2.2.intr_mask = s.intr_mask := by rw [bufRead_state]

@[simp] theorem bufRead_tx_written (index : Fin 2) (s : State) :
    (bufRead index s).2.2.tx_written = s.tx_written := by rw [bufRead_state]

@[simp] theorem bufRead_hw_status (index : Fin 2) (s : State) :
    (bufRead index s).2.2.hw_status = s.hw_status := by rw [bufRead_state]

@[simp] theorem bufRead_status_reads (index : Fin 2) (s : State) :
    (bufRead index s).2.2.status_reads = s.status_reads := by rw [bufRead_state]

@[simp] theorem push_intr_mask (index : Fin 2) (v : Nat) (s : State) :
    (push index v s).intr_mask = s.intr_mask := by rw [push_eq]

@[simp] theorem push_control (index : Fin 2) (v : Nat) (s : State) :
    (push index v s).control = s.control := by rw [push_eq]

@[simp] theorem push_tx_written (index : Fin 2) (v : Nat) (s : State) :
    (push index v s).tx_written = s.tx_written := by rw [push_eq]

@[simp] theorem push_hw_status (index : Fin 2) (v : Nat) (s : State) :
    (push index v s).hw_status = s.hw_status := by rw [push_eq]

@[simp] theorem push_status_reads (index : Fin 2) (v : Nat) (s : State) :
    (push index v s).status_reads = s.status_reads := by rw [push_eq]

theorem uart_send_loop_frame (len : Nat) :
    ∀ (buf : List Nat) (s : State),
      (uart_send_loop buf len s).intr_mask = s.intr_mask ∧
      (uart_send_loop buf len s).control = s.control ∧
      (uart_send_loop buf len s).tx_written = s.tx_written ∧
      (uart_send_loop buf len s).hw_status = s.hw_status ∧
      (uart_send_loop buf len s).status_reads = s.status_reads := by
  induction len with
  | zero => intro buf s; simp [uart_send_loop]
  | succ len ih =>
    intro buf s
    obtain ⟨h1, h2, h3, h4, h5⟩ := ih buf.tail (push TX_FIFO (buf.headD 0) s)
    simp only [uart_send_loop, h1, h2, h3, h4, h5, push_intr_mask, push_control,
      push_tx_written, push_hw_status, push_status_reads, and_self]

theorem uart_send_loop_pushes (buf : List Nat) :
    ∀ s : State, uart_send_loop buf buf.length s = pushes TX_FIFO buf s := by
  induction buf with
  | nil => intro s; rfl
  | cons v l ih =>
    intro s
    simp only [List.length_cons, uart_send_loop, List.headD_cons, List.tail_cons, pushes, ih]

/-! ## Bit facts -/

theorem lor_land_self (m k : Nat) : (m ||| k) &&& k = k := by
  apply Nat.eq_of_testBit_eq
  intro i
  rw [Nat.testBit_and, Nat.testBit_or]
  cases m.testBit i <;> cases k.testBit i <;> rfl

theorem testBit_lor_of_clear (m k i : Nat) (h : k.testBit i = false) :
    (m ||| k).testBit i = m.testBit i := by
  rw [Nat.testBit_or, h, Bool.or_false]

theorem clear_tx_bit (m : Nat) :
    ((m &&& (0xFFFFFFFF - UART_INT_TX)) % 256) &&& UART_INT_TX = 0 := by
  have e : (256 : Nat) = 2 ^ 8 := rfl
  apply Nat.eq_of_testBit_eq
  intro i
  rw [Nat.testBit_and, e, Nat.testBit_mod_two_pow, Nat.testBit_and, Nat.zero_testBit]
  by_cases h : i = 3
  · subst h
    have : Nat.testBit (0xFFFFFFFF - UART_INT_TX) 3 = false := by decide
    simp [this]
  · have : Nat.testBit UART_INT_TX i = false := by
      have e3 : UART_INT_TX = 2 ^ 3 := rfl
      rw [e3, Nat.testBit_two_pow]
      simpa using fun h' => h h'.symm
    simp [this]

theorem uart_send_regs (buf : List Nat) (len : Nat) (s : State) :
    (uart_send buf len s).2.intr_mask = s.intr_mask ||| UART_INT_TX ∧
    (uart_send buf len s).2.control = s.control ||| XMT_FIFO_EMPTY := by
  obtain ⟨h1, h2, _, _, _⟩ := uart_send_loop_frame len buf s
  simp only [uart_send, h1, h2, and_self]

/-! ## C5: empty-read idempotence -/

/-- C5: for every buffer whose read cursor equals its write cursor and every k (in
particular every k ≥ 1), k consecutive calls of bufRead all return flag 0, and after
them the read cursor and the write cursor are unchanged, so the buffer is still empty. -/
theorem empty_read_idempotent (index : Fin 2) (s : State) (k : Nat)
    (hempty : (s.arm_uart_bufs index).read_ptr = (s.arm_uart_bufs index).write_ptr) :
    (pops index k s).1.map Prod.fst = List.replicate k 0 ∧
    ((pops index k s).2.arm_uart_bufs index).read_ptr = (s.arm_uart_bufs index).read_ptr ∧
    ((pops index k s).2.arm_uart_bufs index).write_ptr = (s.arm_uart_bufs index).write_ptr ∧
    ((pops index k s).2.arm_uart_bufs index).read_ptr =
      ((pops index k s).2.arm_uart_bufs index).write_ptr := by
  obtain ⟨h1, h2⟩ := pops_empty index k s hempty
  rw [h2]
  exact ⟨h1, rfl, rfl, hempty⟩

/-- C5, witness: three reads of the empty receive fifo of a freshly initialised machine. -/
theorem empty_read_idempotent_witness :
    (pops RX_FIFO 3 (init_arm_uart_bufs bootState)).1.map Prod.fst = List.replicate 3 0 ∧
    ((pops RX_FIFO 3 (init_arm_uart_bufs bootState)).2.arm_uart_bufs RX_FIFO).read_ptr =
      ((init_arm_uart_bufs bootState).arm_uart_bufs RX_FIFO).read_ptr ∧
    ((pops RX_FIFO 3 (init_arm_uart_bufs bootState)).2.arm_uart_bufs RX_FIFO).write_ptr =
      ((init_arm_uart_bufs bootState).arm_uart_bufs RX_FIFO).write_ptr ∧
    ((pops RX_FIFO 3 (init_arm_uart_bufs bootState)).2.arm_uart_bufs RX_FIFO).read_ptr =
      ((pops RX_FIFO 3 (init_arm_uart_bufs bootState)).2.arm_uart_bufs RX_FIFO).write_ptr :=
  empty_read_idempotent RX_FIFO (init_arm_uart_bufs bootState) 3 (by decide)

/-! ## C6: arming by `uart_send` -/

/-- C6: for every prior state, every byte sequence and every length len ≥ 0, after
uart_send(buf, len) bit UART_INT_TX is set in the interrupt mask register and bit
XMT_FIFO_EMPTY is set in the control register, every other bit of those two registers
is unchanged, and the returned status is 0. -/
theorem uart_send_arms (buf : List Nat) (len : Nat) (s : State) :
    (uart_send buf len s).1 = 0 ∧
    (uart_send buf len s).2.intr_mask &&& UART_INT_TX = UART_INT_TX ∧
    (uart_send buf len s).2.control &&& XMT_FIFO_EMPTY = XMT_FIFO_EMPTY ∧
    (∀ i, UART_INT_TX.testBit i = false →
      (uart_send buf len s).2.intr_mask.testBit i = s.intr_mask.testBit i) ∧
    (∀ i, XMT_FIFO_EMPTY.testBit i = false →
      (uart_send buf len s).2.control.testBit i = s.control.testBit i) := by
  obtain ⟨h1, h2⟩ := uart_send_regs buf len s
  rw [h1, h2]
  exact ⟨rfl, lor_land_self _ _, lor_land_self _ _,
    fun i hi => testBit_lor_of_clear _ _ _ hi, fun i hi => testBit_lor_of_clear _ _ _ hi⟩

/-- C6, instance: bit 2 of the interrupt mask is untouched by a two-byte send. -/
theorem uart_send_arms_witness :
    (uart_send [65, 66] 2 bootState).2.intr_mask.testBit 2 = bootState.intr_mask.testBit 2 :=
  (uart_send_arms [65, 66] 2 bootState).2.2.2.1 2 (by decide)

/-! ## The drain loop of `uart_tx` -/

@[simp] theorem readStatus_bufs (s : State) :
    (readStatus s).2.arm_uart_bufs = s.arm_uart_bufs := rfl

@[simp] theorem readStatus_mem (s : State) : (readStatus s).2.mem = s.mem := rfl

@[simp] theorem readStatus_intr_mask (s : State) :
    (readStatus s).2.intr_mask = s.intr_mask := rfl

@[simp] theorem readStatus_hw_status (s : State) :
    (readStatus s).2.hw_status = s.hw_status := rfl

@[simp] theorem readStatus_status_reads (s : State) :
    (readStatus s).2.status_reads = s.status_reads + 1 := rfl

@[simp] theorem readStatus_tx_written (s : State) :
    (readStatus s).2.tx_written = s.tx_written := rfl

@[simp] theorem readStatus_fst (s : State) :
    (readStatus s).1 = s.hw_status s.status_reads := rfl

/-- What every terminating run of the drain loop guarantees, whatever the hardware
reports: the mask and the status stream are untouched, at least one status read took
place, the loop left either with `ret = 0` or on a status read reporting
`XMT_FIFO_FULL`, and `ret = 0` at exit means the transmit fifo is empty at exit. -/
theorem uart_tx_loop_spec (fuel : Nat) :
    ∀ (ret : Int) (s : State) (ret' : Int) (s' : State),
      uart_tx_loop fuel ret s = some (ret', s') →
      s'.intr_mask = s.intr_mask ∧ s'.hw_status = s.hw_status ∧
      s.status_reads < s'.status_reads ∧
      (ret' = 0 ∨ s'.hw_status (s'.status_reads - 1) &&& XMT_FIFO_FULL ≠ 0) ∧
      ((ret = 0 → (s.arm_uart_bufs TX_FIFO).read_ptr = (s.arm_uart_bufs TX_FIFO).write_ptr) →
        ret' = 0 → (s'.arm_uart_bufs TX_FIFO).read_ptr = (s'.arm_uart_bufs TX_FIFO).write_ptr) := by
  induction fuel with
  | zero => intro ret s ret' s' h; simp [uart_tx_loop] at h
  | succ fuel ih =>
    intro ret s ret' s' h
    simp only [uart_tx_loop] at h
    split_ifs at h with hc hr
    · obtain ⟨h1, h2, h3, h4, h5⟩ := ih _ _ _ _ h
      simp only [writeTxData, bufRead_intr_mask, bufRead_hw_status, bufRead_status_reads,
        readStatus_intr_mask, readStatus_hw_status, readStatus_status_reads] at h1 h2 h3
      refine ⟨h1, h2, by omega, h4, fun _ => h5 (fun h0 => absurd h0 hr)⟩
    · obtain ⟨h1, h2, h3, h4, h5⟩ := ih _ _ _ _ h
      simp only [bufRead_intr_mask, bufRead_hw_status, bufRead_status_reads,
        readStatus_intr_mask, readStatus_hw_status, readStatus_status_reads] at h1 h2 h3
      refine ⟨h1, h2, by omega, h4, fun _ => h5 (fun _ => ?_)⟩
      have hr0 : (bufRead TX_FIFO (readStatus s).2).1 = 0 := by simpa using hr
      rw [bufRead_flag] at hr0
      have he : ((readStatus s).2.arm_uart_bufs TX_FIFO).read_ptr =
          ((readStatus s).2.arm_uart_bufs TX_FIFO).write_ptr := by
        by_contra hne
        rw [if_neg hne] at hr0
        exact absurd hr0 (by decide)
      rw [bufRead_buf_empty TX_FIFO _ he]
      exact he
    · simp only [Option.some.injEq, Prod.mk.injEq] at h
      obtain ⟨hret, hs⟩ := h
      subst hret hs
      refine ⟨rfl, rfl, by simp, ?_, fun hinv h0 => hinv h0⟩
      simp only [readStatus_hw_status, readStatus_status_reads, Nat.add_sub_cancel]
      simp only [readStatus_fst, not_and, not_not] at hc
      by_cases hf : s.hw_status s.status_reads &&& XMT_FIFO_FULL = 0
      · exact Or.inl (hc hf)
      · exact Or.inr hf

/-- The drain loop on a fifo holding `q`, with hardware that never reports full: it
terminates with `ret = 0`, has written exactly `q` to the transmit data register, and
leaves the fifo empty. -/
theorem uart_tx_loop_drain (q : List Nat) :
    ∀ (s : State) (fuel : Nat), Holds s TX_FIFO q →
      (∀ k, s.status_reads ≤ k → s.hw_status k &&& XMT_FIFO_FULL = 0) →
      q.length + 2 ≤ fuel →
      ∃ s', uart_tx_loop fuel 1 s = some (0, s') ∧
        s'.tx_written = s.tx_written ++ q ∧ Holds s' TX_FIFO [] ∧
        s'.intr_mask = s.intr_mask := by
  induction q with
  | nil =>
    intro s fuel h hst hf
    obtain ⟨f, rfl⟩ : ∃ f, fuel = f + 2 := ⟨fuel - 2, by simp only [List.length_nil] at hf; omega⟩
    have hs1 : Holds (readStatus s).2 TX_FIFO [] := Holds_congr s _ _ _ rfl rfl h
    obtain ⟨hflag, hh⟩ := Holds_pop_nil TX_FIFO _ hs1
    refine ⟨(readStatus (bufRead TX_FIFO (readStatus s).2).2.2).2, ?_, ?_, ?_, ?_⟩
    · simp only [uart_tx_loop, readStatus_fst, hst s.status_reads (le_refl _), hflag]
      simp
    · simp
    · exact Holds_congr _ _ _ _ rfl rfl hh
    · simp
  | cons a q ih =>
    intro s fuel h hst hf
    obtain ⟨f, rfl⟩ : ∃ f, fuel = f + 1 := ⟨fuel - 1, by simp only [List.length_cons] at hf; omega⟩
    have hs1 : Holds (readStatus s).2 TX_FIFO (a :: q) := Holds_congr s _ _ _ rfl rfl h
    obtain ⟨hflag, hbyte, hh⟩ := Holds_pop TX_FIFO a _ q hs1
    have hw : Holds (writeTxData a (bufRead TX_FIFO (readStatus s).2).2.2) TX_FIFO q :=
      Holds_congr _ _ _ _ rfl rfl hh
    have hst' : ∀ k, (writeTxData a (bufRead TX_FIFO (readStatus s).2).2.2).status_reads ≤ k →
        (writeTxData a (bufRead TX_FIFO (readStatus s).2).2.2).hw_status k &&& XMT_FIFO_FULL
          = 0 := by
      intro k hk
      simp only [writeTxData, bufRead_status_reads, readStatus_status_reads,
        bufRead_hw_status, readStatus_hw_status] at hk ⊢
      exact hst k (by omega)
    obtain ⟨s', h1, h2, h3, h4⟩ := ih _ f hw hst'
      (by simp only [List.length_cons] at hf; omega)
    refine ⟨s', ?_, ?_, h3, ?_⟩
    · simp only [uart_tx_loop, readStatus_fst, hst s.status_reads (le_refl _), hflag, hbyte]
      simpa using h1
    · rw [h2]; simp [writeTxData]
    · rw [h4]; simp [writeTxData]

/-! ## C2: transmit end to end -/

theorem init_frame (s : State) :
    (init_arm_uart_bufs s).tx_written = s.tx_written ∧
    (init_arm_uart_bufs s).hw_status = s.hw_status ∧
    (init_arm_uart_bufs s).status_reads = s.status_reads ∧
    (init_arm_uart_bufs s).intr_mask = s.intr_mask ∧
    (init_arm_uart_bufs s).mem = s.mem :=
  ⟨rfl, rfl, rfl, rfl, rfl⟩

/-- C2: for every byte sequence of length n ≤ 1023, after init_arm_uart_bufs and
uart_send(bytes, n), one run of uart_tx whose first status read has XMT_FIFO_EMPTY set
and whose later status reads never report XMT_FIFO_FULL terminates (given n + 2 units
of fuel), writes exactly those n bytes to the TX data register in the order they were
sent, leaves the TX buffer empty, and leaves UART_INT_TX cleared in the interrupt mask. -/
theorem transmit_end_to_end (s0 : State) (bytes : List Nat) (fuel : Nat)
    (hn : bytes.length ≤ 1023)
    (hempty : s0.hw_status s0.status_reads &&& XMT_FIFO_EMPTY ≠ 0)
    (hfull : ∀ k, s0.status_reads < k → s0.hw_status k &&& XMT_FIFO_FULL = 0)
    (hfuel : bytes.length + 2 ≤ fuel) :
    ∃ s', uart_tx fuel (uart_send bytes bytes.length (init_arm_uart_bufs s0)).2 = some s' ∧
      s'.tx_written = s0.tx_written ++ bytes ∧
      (s'.arm_uart_bufs TX_FIFO).read_ptr = (s'.arm_uart_bufs TX_FIFO).write_ptr ∧
      s'.intr_mask &&& UART_INT_TX = 0 := by
  obtain ⟨i1, i2, i3, _, _⟩ := init_frame s0
  obtain ⟨_, _, f3, f4, f5⟩ := uart_send_loop_frame bytes.length bytes (init_arm_uart_bufs s0)
  have h0 : Holds (init_arm_uart_bufs s0) TX_FIFO [] :=
    Holds_nil _ _ (init_WF s0 TX_FIFO) (init_empty s0 TX_FIFO)
  have h1 := Holds_pushes TX_FIFO bytes _ [] h0
    (by simp only [List.length_nil, UART_BUF_SIZE]; omega)
  rw [List.nil_append, ← uart_send_loop_pushes] at h1
  have h2 : Holds (readStatus (uart_send bytes bytes.length (init_arm_uart_bufs s0)).2).2
      TX_FIFO bytes := Holds_congr _ _ _ _ rfl rfl h1
  have hst : ∀ k, (readStatus (uart_send bytes bytes.length
      (init_arm_uart_bufs s0)).2).2.status_reads ≤ k →
      (readStatus (uart_send bytes bytes.length (init_arm_uart_bufs s0)).2).2.hw_status k
        &&& XMT_FIFO_FULL = 0 := by
    intro k hk
    simp only [readStatus_status_reads, readStatus_hw_status, uart_send, f4, f5, i2, i3]
      at hk ⊢
    exact hfull k (by omega)
  obtain ⟨s', hl, hw, hh, _⟩ := uart_tx_loop_drain bytes _ fuel h2 hst hfuel
  have hE : (readStatus (uart_send bytes bytes.length (init_arm_uart_bufs s0)).2).1
      &&& XMT_FIFO_EMPTY ≠ 0 := by
    simp only [readStatus_fst, uart_send, f4, f5, i2, i3]
    exact hempty
  refine ⟨{ s' with intr_mask := (s'.intr_mask &&& (0xFFFFFFFF - UART_INT_TX)) % 256 },
    ?_, ?_, ?_, clear_tx_bit _⟩
  · simp only [uart_tx]
    rw [if_pos hE, hl]
    rfl
  · show s'.tx_written = _
    rw [hw]
    simp only [readStatus_tx_written, uart_send, f3, i1]
  · exact (Holds_empty_iff s' TX_FIFO [] hh).2 rfl

/-- C2, witness: "AB" sent on the freshly initialised machine and drained. -/
theorem transmit_end_to_end_witness :
    ∃ s', uart_tx 4 (uart_send [65, 66] [65, 66].length (init_arm_uart_bufs bootState)).2
        = some s' ∧
      s'.tx_written = bootState.tx_written ++ [65, 66] ∧
      (s'.arm_uart_bufs TX_FIFO).read_ptr = (s'.arm_uart_bufs TX_FIFO).write_ptr ∧
      s'.intr_mask &&& UART_INT_TX = 0 :=
  transmit_end_to_end bootState [65, 66] 4 (by decide) (by decide)
    (fun _ _ => (by decide : (128 &&& 64 : Nat) = 0)) (by decide)

/-! ## C7 and C8: disarming the transmit interrupt -/

theorem uart_rx_intr_mask (fuel : Nat) :
    ∀ (s s' : State), uart_rx fuel s = some s' → s'.intr_mask = s.intr_mask := by
  induction fuel with
  | zero => intro s s' h; simp [uart_rx] at h
  | succ fuel ih =>
    intro s s' h
    simp only [uart_rx] at h
    split_ifs at h with hc
    · rw [ih _ _ h]
      simp only [uart_rx_body, store, readRxData, next_ptr, setBuf]
      split_ifs <;> rfl
    · simp only [Option.some.injEq] at h
      subst h
      rfl

/-- The three possible outcomes of a terminating `uart_tx`, whatever the hardware
reports: the mask is untouched, or the transmit fifo is empty and the bit is cleared. -/
theorem uart_tx_mask (fuel : Nat) (s s' : State) (h : uart_tx fuel s = some s') :
    s'.intr_mask = s.intr_mask ∨
    ((s'.arm_uart_bufs TX_FIFO).read_ptr = (s'.arm_uart_bufs TX_FIFO).write_ptr ∧
      s'.intr_mask &&& UART_INT_TX = 0) := by
  simp only [uart_tx] at h
  split_ifs at h with hE
  · cases hloop : uart_tx_loop fuel 1 (readStatus s).2 with
    | none => rw [hloop] at h; simp at h
    | some p =>
      obtain ⟨ret, s2⟩ := p
      rw [hloop] at h
      obtain ⟨h1, _, _, _, h5⟩ := uart_tx_loop_spec fuel 1 _ ret s2 hloop
      simp only at h
      split_ifs at h with hr
      · simp only [Option.some.injEq] at h
        subst h
        exact Or.inr ⟨h5 (fun h0 => absurd h0 (by decide)) hr, clear_tx_bit _⟩
      · simp only [Option.some.injEq] at h
        subst h
        exact Or.inl h1
  · simp only [Option.some.injEq] at h
    subst h
    exact Or.inl rfl

theorem uart_irq_interrupt_mask (fuel vector : Nat) (s s' : State)
    (h : uart_irq_interrupt fuel vector s = some s') :
    s'.intr_mask = s.intr_mask ∨
    ((s'.arm_uart_bufs TX_FIFO).read_ptr = (s'.arm_uart_bufs TX_FIFO).write_ptr ∧
      s'.intr_mask &&& UART_INT_TX = 0) := by
  simp only [uart_irq_interrupt] at h
  have key : ∀ s1 : State, s1.intr_mask = s.intr_mask →
      (if (readIntrStatus s).1 &&& UART_INT_TX ≠ 0 then
        uart_tx fuel { s1 with intr_ack := s1.intr_ack ||| UART_INT_TX }
      else some s1) = some s' →
      s'.intr_mask = s.intr_mask ∨
      ((s'.arm_uart_bufs TX_FIFO).read_ptr = (s'.arm_uart_bufs TX_FIFO).write_ptr ∧
        s'.intr_mask &&& UART_INT_TX = 0) := by
    intro s1 hm h2
    split_ifs at h2 with hT
    · rcases uart_tx_mask fuel _ s' h2 with h3 | h3
      · exact Or.inl (h3.trans hm)
      · exact Or.inr h3
    · simp only [Option.some.injEq] at h2
      subst h2
      exact Or.inl hm
  by_cases hR : (readIntrStatus s).1 &&& UART_INT_RX ≠ 0
  · rw [if_pos hR] at h
    cases hrx : uart_rx fuel { (readIntrStatus s).2 with
        intr_ack := (readIntrStatus s).2.intr_ack ||| UART_INT_RX } with
    | none => rw [hrx] at h; simp at h
    | some s1 =>
      rw [hrx] at h
      have hm := uart_rx_intr_mask fuel _ s1 hrx
      exact key s1 hm h
  · rw [if_neg hR] at h
    exact key (readIntrStatus s).2 rfl h

/-- C7: whatever the hardware status register reports, no operation changes bit
UART_INT_TX of the interrupt mask from set to clear unless the TX buffer's read cursor
equals its write cursor when the bit is cleared: uart_send, bufRead and uart_rx leave a
set bit set, and a run of uart_tx or of uart_irq_interrupt that starts with the bit set
and ends with it clear ends with the TX buffer empty (the clearing store is the last
action of uart_tx, and uart_tx is the last action of uart_irq_interrupt). -/
theorem tx_disarmed_only_when_empty :
    (∀ (buf : List Nat) (len : Nat) (s : State),
      s.intr_mask &&& UART_INT_TX ≠ 0 →
      (uart_send buf len s).2.intr_mask &&& UART_INT_TX ≠ 0) ∧
    (∀ (index : Fin 2) (s : State),
      s.intr_mask &&& UART_INT_TX ≠ 0 →
      (bufRead index s).2.2.intr_mask &&& UART_INT_TX ≠ 0) ∧
    (∀ (fuel : Nat) (s s' : State), uart_rx fuel s = some s' →
      s.intr_mask &&& UART_INT_TX ≠ 0 → s'.intr_mask &&& UART_INT_TX ≠ 0) ∧
    (∀ (fuel : Nat) (s s' : State), uart_tx fuel s = some s' →
      s.intr_mask &&& UART_INT_TX ≠ 0 → s'.intr_mask &&& UART_INT_TX = 0 →
      (s'.arm_uart_bufs TX_FIFO).read_ptr = (s'.arm_uart_bufs TX_FIFO).write_ptr) ∧
    (∀ (fuel vector : Nat) (s s' : State), uart_irq_interrupt fuel vector s = some s' →
      s.intr_mask &&& UART_INT_TX ≠ 0 → s'.intr_mask &&& UART_INT_TX = 0 →
      (s'.arm_uart_bufs TX_FIFO).read_ptr = (s'.arm_uart_bufs TX_FIFO).write_ptr) := by
  refine ⟨?_, ?_, ?_, ?_, ?_⟩
  · intro buf len s _
    rw [(uart_send_regs buf len s).1, lor_land_self]
    decide
  · intro index s h
    rw [bufRead_intr_mask]
    exact h
  · intro fuel s s' h ha
    rw [uart_rx_intr_mask fuel s s' h]
    exact ha
  · intro fuel s s' h ha hc
    rcases uart_tx_mask fuel s s' h with h1 | h1
    · rw [h1] at hc
      exact absurd hc ha
    · exact h1.1
  · intro fuel vector s s' h ha hc
    rcases uart_irq_interrupt_mask fuel vector s s' h with h1 | h1
    · rw [h1] at hc
      exact absurd hc ha
    · exact h1.1

/-- C7, instance: draining the one queued byte of `armedState` clears the bit, and the
transmit fifo is empty at that point. -/
theorem tx_disarmed_only_when_empty_witness :
    (((uart_tx 3 armedState).getD armedState).arm_uart_bufs TX_FIFO).read_ptr =
      (((uart_tx 3 armedState).getD armedState).arm_uart_bufs TX_FIFO).write_ptr :=
  tx_disarmed_only_when_empty.2.2.2.1 3 armedState ((uart_tx 3 armedState).getD armedState)
    rfl (by decide) (by decide)

/-- A sufficient condition for the disarm, whatever the hardware status register
reports: if the TX software buffer becomes empty during a run of uart_tx (non-empty
before, read cursor equal to write cursor after) and the last status read of the run
did not report XMT_FIFO_FULL, then the loop ended on a bufRead that returned 0 and bit
UART_INT_TX of the interrupt mask register is clear when uart_tx returns. -/
theorem disarm_on_empty (fuel : Nat) (s s' : State)
    (hrun : uart_tx fuel s = some s')
    (hne : (s.arm_uart_bufs TX_FIFO).read_ptr ≠ (s.arm_uart_bufs TX_FIFO).write_ptr)
    (he : (s'.arm_uart_bufs TX_FIFO).read_ptr = (s'.arm_uart_bufs TX_FIFO).write_ptr)
    (hlast : s'.hw_status (s'.status_reads - 1) &&& XMT_FIFO_FULL = 0) :
    s'.intr_mask &&& UART_INT_TX = 0 := by
  simp only [uart_tx] at hrun
  split_ifs at hrun with hE
  · cases hloop : uart_tx_loop fuel 1 (readStatus s).2 with
    | none => rw [hloop] at hrun; simp at hrun
    | some p =>
      obtain ⟨ret, s2⟩ := p
      rw [hloop] at hrun
      obtain ⟨_, _, _, h4, _⟩ := uart_tx_loop_spec fuel 1 _ ret s2 hloop
      simp only at hrun
      split_ifs at hrun with hr
      · simp only [Option.some.injEq] at hrun
        subst hrun
        exact clear_tx_bit _
      · simp only [Option.some.injEq] at hrun
        subst hrun
        rcases h4 with h4 | h4
        · exact absurd h4 hr
        · exact absurd hlast h4
  · simp only [Option.some.injEq] at hrun
    subst hrun
    exact absurd he hne

/-- An instance of `disarm_on_empty`: the one queued byte of `armedState` drained by
hardware that is never full. -/
theorem disarm_on_empty_witness :
    ((uart_tx 3 armedState).getD armedState).intr_mask &&& UART_INT_TX = 0 :=
  disarm_on_empty 3 armedState ((uart_tx 3 armedState).getD armedState)
    rfl (by decide) (by decide) (by decide)

/-- C8, the code at the failing input: on `lateFullState` the hardware accepts the single
queued byte and then reports XMT_FIFO_FULL. The TX software buffer becomes empty during
the run of uart_tx (non-empty before, read cursor equal to write cursor after, the byte
written to the TX data register), yet bit UART_INT_TX of the interrupt mask register
is still set when uart_tx returns: the loop ends with `ret = 1`, and the test
`ret == 0` under the comment "software transmit fifo empty?" misses the empty buffer. -/
theorem disarm_missed_when_hw_fills :
    ∃ s', uart_tx 3 lateFullState = some s' ∧
      (lateFullState.arm_uart_bufs TX_FIFO).read_ptr ≠
        (lateFullState.arm_uart_bufs TX_FIFO).write_ptr ∧
      (s'.arm_uart_bufs TX_FIFO).read_ptr = (s'.arm_uart_bufs TX_FIFO).write_ptr ∧
      s'.tx_written = [65] ∧
      s'.intr_mask &&& UART_INT_TX ≠ 0 := by
  refine ⟨(uart_tx 3 lateFullState).getD lateFullState, rfl, ?_, ?_, ?_, ?_⟩ <;> decide

/-! ## C3: receive end to end -/

theorem uart_rx_body_eq (s : State) :
    uart_rx_body (readStatus s).2 =
      { push RX_FIFO (s.hw_rx s.rx_reads) s with
        status_reads := s.status_reads + 1
        rx_reads := s.rx_reads + 1 } := by
  rw [push_eq]
  simp only [uart_rx_body, store, readRxData, readStatus, next_ptr, setBuf, nxt]
  split_ifs <;> rfl

/-- The fill loop on a fifo holding `q`, with `DATA_READY` reported exactly `l.length`
times and the receive data register yielding `l`: it terminates and leaves `q ++ l`. -/
theorem uart_rx_fill (l : List Nat) :
    ∀ (s : State) (q : List Nat) (fuel : Nat), Holds s RX_FIFO q →
      q.length + l.length < UART_BUF_SIZE →
      (∀ i, i < l.length → s.hw_status (s.status_reads + i) &&& DATA_READY ≠ 0) →
      s.hw_status (s.status_reads + l.length) &&& DATA_READY = 0 →
      (∀ i, i < l.length → s.hw_rx (s.rx_reads + i) = l.getD i 0) →
      l.length + 1 ≤ fuel →
      ∃ s', uart_rx fuel s = some s' ∧ Holds s' RX_FIFO (q ++ l) := by
  induction l with
  | nil =>
    intro s q fuel h _ _ hdone _ hf
    obtain ⟨f, rfl⟩ : ∃ f, fuel = f + 1 := ⟨fuel - 1, by omega⟩
    refine ⟨(readStatus s).2, ?_, ?_⟩
    · simp only [List.length_nil, Nat.add_zero] at hdone
      simp only [uart_rx, readStatus_fst, hdone]
      simp
    · rw [List.append_nil]
      exact Holds_congr s _ _ _ rfl rfl h
  | cons v l ih =>
    intro s q fuel h hlen hready hdone hrx hf
    simp only [List.length_cons] at hlen hready hdone hrx hf
    obtain ⟨f, rfl⟩ : ∃ f, fuel = f + 1 := ⟨fuel - 1, by omega⟩
    have hr0 := hready 0 (by omega)
    have hv : s.hw_rx s.rx_reads = v := by
      have := hrx 0 (by omega)
      simpa using this
    rw [Nat.add_zero] at hr0
    have hp := Holds_push RX_FIFO v s q h (by omega)
    have hb : Holds (uart_rx_body (readStatus s).2) RX_FIFO (q ++ [v]) := by
      rw [uart_rx_body_eq, hv]
      exact Holds_congr _ _ _ _ rfl rfl hp
    have hl2 : (q ++ [v]).length + l.length < UART_BUF_SIZE := by
      simp only [List.length_append, List.length_singleton]
      omega
    have e1 : (uart_rx_body (readStatus s).2).hw_status = s.hw_status := by
      rw [uart_rx_body_eq]; simp
    have e2 : (uart_rx_body (readStatus s).2).status_reads = s.status_reads + 1 := by
      rw [uart_rx_body_eq]
    have e3 : (uart_rx_body (readStatus s).2).hw_rx = s.hw_rx := by
      rw [uart_rx_body_eq, push_eq]
    have e4 : (uart_rx_body (readStatus s).2).rx_reads = s.rx_reads + 1 := by
      rw [uart_rx_body_eq]
    obtain ⟨s', h1, h2⟩ := ih (uart_rx_body (readStatus s).2) (q ++ [v]) f hb hl2
      (by
        intro i hi
        rw [e1, e2]
        have := hready (i + 1) (by omega)
        rw [show s.status_reads + 1 + i = s.status_reads + (i + 1) by omega]
        exact this)
      (by
        rw [e1, e2, show s.status_reads + 1 + l.length = s.status_reads + (l.length + 1) by omega]
        exact hdone)
      (by
        intro i hi
        rw [e3, e4, show s.rx_reads + 1 + i = s.rx_reads + (i + 1) by omega, hrx (i + 1) (by omega)]
        simp)
      (by omega)
    refine ⟨s', ?_, by simpa using h2⟩
    simp only [uart_rx, readStatus_fst]
    rw [if_pos hr0]
    exact h1

/-- C3: for every byte sequence b_1..b_n with n ≤ 1023, starting from an empty RX
buffer (cursors equal and inside its 1024-slot storage), a run of uart_rx in which the status register reports DATA_READY for exactly
the first n reads and the RX data register yields b_1..b_n terminates (given n + 1
units of fuel), and the following n + 1 calls of bufRead on RX_FIFO return (b_i, 1)
for the i-th call in reception order for i ≤ n, and flag 0 for call n + 1. -/
theorem receive_end_to_end (s : State) (bytes : List Nat) (fuel : Nat)
    (hwf : WF (s.arm_uart_bufs RX_FIFO))
    (hempty : (s.arm_uart_bufs RX_FIFO).read_ptr = (s.arm_uart_bufs RX_FIFO).write_ptr)
    (hn : bytes.length ≤ 1023)
    (hready : ∀ i, i < bytes.length → s.hw_status (s.status_reads + i) &&& DATA_READY ≠ 0)
    (hdone : s.hw_status (s.status_reads + bytes.length) &&& DATA_READY = 0)
    (hrx : ∀ i, i < bytes.length → s.hw_rx (s.rx_reads + i) = bytes.getD i 0)
    (hfuel : bytes.length + 1 ≤ fuel) :
    ∃ s' c, uart_rx fuel s = some s' ∧
      (pops RX_FIFO (bytes.length + 1) s').1 =
        bytes.map (fun b => ((1 : Int), b)) ++ [(0, c)] := by
  obtain ⟨s', h1, h2⟩ := uart_rx_fill bytes s [] fuel (Holds_nil s RX_FIFO hwf hempty)
    (by simp only [List.length_nil, UART_BUF_SIZE]; omega) hready hdone hrx hfuel
  rw [List.nil_append] at h2
  obtain ⟨p1, p2⟩ := pops_Holds RX_FIFO bytes s' [] (by rw [List.append_nil]; exact h2)
  obtain ⟨hflag, _⟩ := Holds_pop_nil RX_FIFO _ p2
  refine ⟨s', (bufRead RX_FIFO (pops RX_FIFO bytes.length s').2).2.1, h1, ?_⟩
  rw [(pops_add RX_FIFO bytes.length 1 s').1, p1]
  simp only [pops, hflag]

/-- C3, witness: the receiver of `rxState` delivers "XY". -/
theorem receive_end_to_end_witness :
    ∃ s' c, uart_rx 3 rxState = some s' ∧
      (pops RX_FIFO ([88, 89].length + 1) s').1 =
        [88, 89].map (fun b => ((1 : Int), b)) ++ [(0, c)] :=
  receive_end_to_end rxState [88, 89] 3 (by decide) (by decide) (by decide) (by decide)
    (by decide) (by decide) (by decide)

/-! ## C9: one full turn of the ring -/

theorem pushSlots_eq (index : Fin 2) (l : List Nat) :
    ∀ s : State, WF (s.arm_uart_bufs index) →
      pushSlots index l s = (List.range l.length).map (fun i =>
        (s.arm_uart_bufs index).beg +
          ((s.arm_uart_bufs index).write_ptr - (s.arm_uart_bufs index).beg + i)
            % UART_BUF_SIZE) := by
  induction l with
  | nil => intro s _; rfl
  | cons v l ih =>
    intro s h
    have h' := WF_push index v s h
    obtain ⟨he, h1, h2, h3, h4⟩ := h
    simp only [pushSlots, List.length_cons, List.range_succ_eq_map, List.map_cons,
      List.map_map]
    rw [ih _ h', next_ptr_fst, push_buf_self]
    simp only [nxt, UART_BUF_SIZE] at *
    congr 1
    · omega
    · apply List.map_congr_left
      intro i _
      simp only [Function.comp_apply]
      split_ifs <;> omega

theorem popSlots_empty (index : Fin 2) (k : Nat) :
    ∀ s : State, (s.arm_uart_bufs index).read_ptr = (s.arm_uart_bufs index).write_ptr →
      popSlots index k s = List.replicate k (s.arm_uart_bufs index).read_ptr := by
  induction k with
  | zero => intro s _; rfl
  | succ k ih =>
    intro s h
    have hb := bufRead_buf_empty index s h
    simp only [popSlots, List.replicate_succ]
    rw [ih _ (by rw [hb]; exact h), hb]

/-- C9, as amended: starting from a freshly initialised buffer, pushing exactly
C = 1024 items writes every storage slot exactly once (first slot to last slot, in
order) and brings the write cursor back to its initial position; the buffer then reads
as empty, so the following 1024 pops all return flag 0, every one of them reads the
first slot, and afterwards both cursors are at their initial positions. -/
theorem wraparound_full_turn (index : Fin 2) (s : State) (bytes : List Nat)
    (hlen : bytes.length = 1024) :
    pushSlots index bytes (init_arm_uart_bufs s) =
      (List.range 1024).map (fun i => ((init_arm_uart_bufs s).arm_uart_bufs index).beg + i) ∧
    (pops index 1024 (pushes index bytes (init_arm_uart_bufs s))).1.map Prod.fst =
      List.replicate 1024 0 ∧
    popSlots index 1024 (pushes index bytes (init_arm_uart_bufs s)) =
      List.replicate 1024 ((init_arm_uart_bufs s).arm_uart_bufs index).beg ∧
    ((pops index 1024 (pushes index bytes (init_arm_uart_bufs s))).2.arm_uart_bufs index).read_ptr
      = ((init_arm_uart_bufs s).arm_uart_bufs index).read_ptr ∧
    ((pops index 1024 (pushes index bytes (init_arm_uart_bufs s))).2.arm_uart_bufs index).write_ptr
      = ((init_arm_uart_bufs s).arm_uart_bufs index).write_ptr := by
  have hwf := init_WF s index
  have hemp := init_empty s index
  have hfull := bufRead_after_full index bytes _ hwf hemp (by rw [hlen]; rfl)
  have hbuf := pushes_buf index bytes _ hwf
  obtain ⟨p1, p2⟩ := pops_empty index 1024 _ hfull
  have hps := popSlots_empty index 1024 _ hfull
  obtain ⟨he, h1, h2, h3, h4⟩ := hwf
  have hrb : ((init_arm_uart_bufs s).arm_uart_bufs index).read_ptr =
      ((init_arm_uart_bufs s).arm_uart_bufs index).beg := by
    have hi : index = TX_FIFO ∨ index = RX_FIFO := by
      unfold TX_FIFO RX_FIFO; omega
    rcases hi with h | h <;> subst h
    · rw [init_buf_tx]
    · rw [init_buf_rx]
  refine ⟨?_, p1, ?_, ?_, ?_⟩
  · rw [pushSlots_eq index bytes _ ⟨he, h1, h2, h3, h4⟩, hlen]
    apply List.map_congr_left
    intro i hi
    rw [List.mem_range] at hi
    simp only [UART_BUF_SIZE] at *
    omega
  · rw [hps, hbuf, hrb]
  · rw [p2, hbuf]
  · rw [p2, hbuf]
    simp only [hlen, UART_BUF_SIZE] at *
    omega

/-- C9, witness: 1024 bytes through the transmit fifo of the initialised machine. -/
theorem wraparound_full_turn_witness :
    popSlots TX_FIFO 1024
        (pushes TX_FIFO (List.replicate 1024 65) (init_arm_uart_bufs bootState)) =
      List.replicate 1024 ((init_arm_uart_bufs bootState).arm_uart_bufs TX_FIFO).beg :=
  (wraparound_full_turn TX_FIFO bootState (List.replicate 1024 65)
    (List.length_replicate 1024 65)).2.2.1

/-- C9, counterexample to the claim as stated: after 1024 pushes into the freshly
initialised transmit fifo the 1024 pops do not read 1024 distinct slots. -/
theorem wraparound_pops_repeat_slot :
    ¬ (popSlots TX_FIFO 1024
        (pushes TX_FIFO (List.replicate 1024 65) (init_arm_uart_bufs bootState))).Nodup := by
  have hfull := bufRead_after_full TX_FIFO (List.replicate 1024 65)
    (init_arm_uart_bufs bootState) (init_WF _ _) (init_empty _ _)
    (by rw [List.length_replicate]; rfl)
  rw [popSlots_empty TX_FIFO 1024 _ hfull, List.nodup_replicate]
  decide

/-! ## C10: overrun -/

theorem pushes_append (index : Fin 2) (l1 l2 : List Nat) :
    ∀ s : State, pushes index (l1 ++ l2) s = pushes index l2 (pushes index l1 s) := by
  induction l1 with
  | nil => intro s; rfl
  | cons v l ih =>
    intro s
    show pushes index (l ++ l2) (push index v s) = _
    exact ih _

/-- A run of pushes changes no address outside the slots it writes. -/
theorem pushes_mem_other (index : Fin 2) (a : Nat) (l : List Nat) :
    ∀ s : State, WF (s.arm_uart_bufs index) →
      (∀ j, j < l.length → a ≠ (s.arm_uart_bufs index).beg +
        ((s.arm_uart_bufs index).write_ptr - (s.arm_uart_bufs index).beg + j)
          % UART_BUF_SIZE) →
      (pushes index l s).mem a = s.mem a := by
  induction l with
  | nil => intro s _ _; rfl
  | cons v l ih =>
    intro s h hne
    have h' := WF_push index v s h
    obtain ⟨he, h1, h2, h3, h4⟩ := h
    simp only [pushes]
    have h0 := hne 0 (by simp)
    rw [ih _ h', push_mem, if_neg]
    · simp only [UART_BUF_SIZE] at *
      omega
    · intro j hj
      have hj1 := hne (j + 1) (by simp only [List.length_cons]; omega)
      rw [push_buf_self]
      simp only [nxt, UART_BUF_SIZE] at *
      split_ifs <;> omega

/-- C10: starting from an empty buffer (cursors equal and inside its 1024-slot
storage), pushing C + 1 = 1025 bytes b0, mid (1023
bytes), blast with no intervening pop leaves the slot that held the oldest unread
byte b0 (it still held b0 after the first 1024 pushes) holding blast, with the write
cursor exactly one slot past the read cursor; the next bufRead returns (blast, 1)
rather than b0, and the bufRead after that returns flag 0. -/
theorem overrun_overwrites_oldest (index : Fin 2) (s : State) (b0 blast : Nat)
    (mid : List Nat)
    (hwf : WF (s.arm_uart_bufs index))
    (hempty : (s.arm_uart_bufs index).read_ptr = (s.arm_uart_bufs index).write_ptr)
    (hmid : mid.length = 1023) :
    (pushes index (b0 :: mid) s).mem (s.arm_uart_bufs index).read_ptr = b0 ∧
    (pushes index (b0 :: mid ++ [blast]) s).mem (s.arm_uart_bufs index).read_ptr = blast ∧
    ((pushes index (b0 :: mid ++ [blast]) s).arm_uart_bufs index).read_ptr =
      (s.arm_uart_bufs index).read_ptr ∧
    ((pushes index (b0 :: mid ++ [blast]) s).arm_uart_bufs index).write_ptr =
      nxt (s.arm_uart_bufs index) (s.arm_uart_bufs index).read_ptr ∧
    (bufRead index (pushes index (b0 :: mid ++ [blast]) s)).1 = 1 ∧
    (bufRead index (pushes index (b0 :: mid ++ [blast]) s)).2.1 = blast ∧
    (bufRead index (bufRead index (pushes index (b0 :: mid ++ [blast]) s)).2.2).1 = 0 := by
  have hbuf := pushes_buf index (b0 :: mid) s hwf
  have hwf1 := WF_push index b0 s hwf
  obtain ⟨he, h1, h2, h3, h4⟩ := hwf
  -- the first 1024 pushes bring the control structure back to where it was
  have hsame : (pushes index (b0 :: mid) s).arm_uart_bufs index = s.arm_uart_bufs index := by
    rw [hbuf]
    simp only [List.length_cons, hmid, UART_BUF_SIZE] at *
    have e : (s.arm_uart_bufs index).beg +
        ((s.arm_uart_bufs index).write_ptr - (s.arm_uart_bufs index).beg + (1023 + 1)) % 1024
        = (s.arm_uart_bufs index).write_ptr := by omega
    rw [e]
  -- the slot at the old cursor holds `b0` until the overrun
  have hb0 : (pushes index (b0 :: mid) s).mem (s.arm_uart_bufs index).read_ptr = b0 := by
    simp only [pushes]
    rw [pushes_mem_other index _ mid _ hwf1, push_mem, if_pos hempty]
    intro j hj
    rw [push_buf_self]
    simp only [nxt, hmid, UART_BUF_SIZE] at *
    split_ifs <;> omega
  have hlast : pushes index (b0 :: mid ++ [blast]) s =
      push index blast (pushes index (b0 :: mid) s) := by
    rw [pushes_append]
    rfl
  have hnext : (s.arm_uart_bufs index).read_ptr ≠
      nxt (s.arm_uart_bufs index) (s.arm_uart_bufs index).read_ptr := by
    simp only [nxt, UART_BUF_SIZE] at *
    split_ifs <;> omega
  have hbl : (pushes index (b0 :: mid ++ [blast]) s).arm_uart_bufs index =
      { s.arm_uart_bufs index with
        write_ptr := nxt (s.arm_uart_bufs index) (s.arm_uart_bufs index).read_ptr } := by
    rw [hlast, push_buf_self, hsame, hempty]
  have hml : (pushes index (b0 :: mid ++ [blast]) s).mem (s.arm_uart_bufs index).read_ptr
      = blast := by
    rw [hlast, push_mem, hsame, if_pos hempty]
  have hne : ((pushes index (b0 :: mid ++ [blast]) s).arm_uart_bufs index).read_ptr ≠
      ((pushes index (b0 :: mid ++ [blast]) s).arm_uart_bufs index).write_ptr := by
    rw [hbl]
    exact hnext
  refine ⟨hb0, hml, by rw [hbl], by rw [hbl], ?_, ?_, ?_⟩
  · rw [bufRead_flag, if_neg hne]
  · rw [bufRead_byte, hbl]
    exact hml
  · rw [bufRead_flag, bufRead_buf_self index _ hne, hbl]
    simp [nxt]

/-- C10, witness: 1025 bytes pushed into the receive fifo of the initialised machine. -/
theorem overrun_overwrites_oldest_witness :
    (pushes RX_FIFO (1 :: List.replicate 1023 2) (init_arm_uart_bufs bootState)).mem
        ((init_arm_uart_bufs bootState).arm_uart_bufs RX_FIFO).read_ptr = 1 ∧
    (pushes RX_FIFO (1 :: List.replicate 1023 2 ++ [3]) (init_arm_uart_bufs bootState)).mem
        ((init_arm_uart_bufs bootState).arm_uart_bufs RX_FIFO).read_ptr = 3 :=
  ⟨(overrun_overwrites_oldest RX_FIFO (init_arm_uart_bufs bootState) 1 3
      (List.replicate 1023 2) (by decide) (by decide) (List.length_replicate 1023 2)).1,
   (overrun_overwrites_oldest RX_FIFO (init_arm_uart_bufs bootState) 1 3
      (List.replicate 1023 2) (by decide) (by decide) (List.length_replicate 1023 2)).2.1⟩

/-! ## C4: one producer and one consumer -/

theorem withinCapacity_length (cap : Nat) (q : List Nat) (ops : List FifoOp)
    (h : withinCapacity cap q ops = true) : q.length ≤ cap := by
  cases ops with
  | nil => simpa [withinCapacity] using h
  | cons op ops =>
    simp only [withinCapacity, Bool.and_eq_true, decide_eq_true_eq] at h
    exact h.1

/-- Whole operations simulate a queue: the bytes of the successful pops followed by the
bytes still held are the bytes held at the start followed by the bytes pushed. -/
theorem runOps_sim (index : Fin 2) (ops : List FifoOp) :
    ∀ (s : State) (q : List Nat), Holds s index q → withinCapacity 1023 q ops = true →
      ∃ rest, Holds (runOps index ops s).2 index rest ∧
        successfulBytes (runOps index ops s).1 ++ rest = q ++ pushedBytes ops := by
  induction ops with
  | nil =>
    intro s q h _
    exact ⟨q, h, by simp [runOps, successfulBytes, pushedBytes]⟩
  | cons op ops ih =>
    intro s q h hc
    simp only [withinCapacity, Bool.and_eq_true, decide_eq_true_eq] at hc
    obtain ⟨_, hc2⟩ := hc
    cases op with
    | push v =>
      have hl := withinCapacity_length _ _ _ hc2
      simp only [queueStep, List.length_append, List.length_singleton] at hl hc2
      have hp := Holds_push index v s q h (by simp only [UART_BUF_SIZE]; omega)
      obtain ⟨rest, r1, r2⟩ := ih _ _ hp hc2
      exact ⟨rest, r1, by simpa [runOps, pushedBytes] using r2⟩
    | pop =>
      cases q with
      | nil =>
        obtain ⟨hf, hh⟩ := Holds_pop_nil index s h
        obtain ⟨rest, r1, r2⟩ := ih _ _ hh hc2
        refine ⟨rest, r1, ?_⟩
        simp only [runOps, successfulBytes, hf, ne_eq, not_true_eq_false, if_false, pushedBytes]
        exact r2
      | cons a q =>
        obtain ⟨hf, hb, hh⟩ := Holds_pop index a s q h
        obtain ⟨rest, r1, r2⟩ := ih _ _ hh hc2
        refine ⟨rest, r1, ?_⟩
        simp only [runOps, successfulBytes, hf, hb, pushedBytes]
        simpa using r2

/-- Whole operations lose nothing: when one stream of pushes is interleaved in any order
with one stream of pops (bufRead) on the same buffer, every push and every pop running
to completion, starting from an empty buffer, and the number of pushed-but-not-yet-popped
bytes never exceeds 1023, then the bytes returned by the successful pops, followed by
the bytes `rest` that a final drain returns (each with flag 1, after which the buffer
reads empty), are exactly the pushed bytes, in order, none dropped, none duplicated. -/
theorem spsc_whole_operations (index : Fin 2) (s : State) (ops : List FifoOp)
    (hwf : WF (s.arm_uart_bufs index))
    (hempty : (s.arm_uart_bufs index).read_ptr = (s.arm_uart_bufs index).write_ptr)
    (hcap : withinCapacity 1023 [] ops = true) :
    ∃ rest, successfulBytes (runOps index ops s).1 ++ rest = pushedBytes ops ∧
      (pops index rest.length (runOps index ops s).2).1 = rest.map (fun b => ((1 : Int), b)) ∧
      (bufRead index (pops index rest.length (runOps index ops s).2).2).1 = 0 := by
  obtain ⟨rest, r1, r2⟩ := runOps_sim index ops s [] (Holds_nil s index hwf hempty) hcap
  obtain ⟨p1, p2⟩ := pops_Holds index rest _ [] (by rw [List.append_nil]; exact r1)
  exact ⟨rest, by simpa using r2, p1, (Holds_pop_nil index _ p2).1⟩

/-- An instance of `spsc_whole_operations`: pushes and pops interleaved on the initialised
transmit fifo. -/
theorem spsc_whole_operations_witness :
    ∃ rest,
      successfulBytes (runOps TX_FIFO
        [FifoOp.push 1, FifoOp.pop, FifoOp.pop, FifoOp.push 2, FifoOp.push 3, FifoOp.pop]
        (init_arm_uart_bufs bootState)).1 ++ rest =
      pushedBytes
        [FifoOp.push 1, FifoOp.pop, FifoOp.pop, FifoOp.push 2, FifoOp.push 3, FifoOp.pop] ∧
      (pops TX_FIFO rest.length (runOps TX_FIFO
        [FifoOp.push 1, FifoOp.pop, FifoOp.pop, FifoOp.push 2, FifoOp.push 3, FifoOp.pop]
        (init_arm_uart_bufs bootState)).2).1 = rest.map (fun b => ((1 : Int), b)) ∧
      (bufRead TX_FIFO (pops TX_FIFO rest.length (runOps TX_FIFO
        [FifoOp.push 1, FifoOp.pop, FifoOp.pop, FifoOp.push 2, FifoOp.push 3, FifoOp.pop]
        (init_arm_uart_bufs bootState)).2).2).1 = 0 :=
  spsc_whole_operations TX_FIFO (init_arm_uart_bufs bootState)
    [FifoOp.push 1, FifoOp.pop, FifoOp.pop, FifoOp.push 2, FifoOp.push 3, FifoOp.pop]
    (by decide) (by decide) (by decide)

theorem runOps_pops (index : Fin 2) (k : Nat) :
    ∀ s : State, runOps index (List.replicate k FifoOp.pop) s = pops index k s := by
  induction k with
  | zero => intro s; rfl
  | succ k ih => intro s; simp only [List.replicate_succ, runOps, pops, ih]

theorem runOps_pushes_pops (index : Fin 2) (k : Nat) (l : List Nat) :
    ∀ s : State, runOps index (l.map FifoOp.push ++ List.replicate k FifoOp.pop) s =
      pops index k (pushes index l s) := by
  induction l with
  | nil => intro s; exact runOps_pops index k s
  | cons v l ih =>
    intro s
    show runOps index (l.map FifoOp.push ++ List.replicate k FifoOp.pop) (push index v s) = _
    exact ih _

theorem pushedBytes_pushes_pops (k : Nat) (l : List Nat) :
    pushedBytes (l.map FifoOp.push ++ List.replicate k FifoOp.pop) = l := by
  induction l with
  | nil =>
    induction k with
    | zero => rfl
    | succ k ih =>
      simp only [List.map_nil, List.nil_append, List.replicate_succ, pushedBytes] at ih ⊢
      exact ih
  | cons v l ih =>
    show v :: pushedBytes (l.map FifoOp.push ++ List.replicate k FifoOp.pop) = _
    rw [ih]

theorem successfulBytes_of_flags_zero (rs : List (Int × Nat))
    (h : rs.map Prod.fst = List.replicate rs.length 0) : successfulBytes rs = [] := by
  induction rs with
  | nil => rfl
  | cons r rs ih =>
    simp only [List.map_cons, List.length_cons, List.replicate_succ, List.cons.injEq] at h
    simp only [successfulBytes, h.1, ne_eq, not_true_eq_false, if_false]
    exact ih h.2

theorem pops_length (index : Fin 2) (k : Nat) :
    ∀ s : State, (pops index k s).1.length = k := by
  induction k with
  | zero => intro s; rfl
  | succ k ih => intro s; simp only [pops, List.length_cons, ih]

/-- The bound of whole operations is 1023, not 1024: 1024 bytes pushed into the empty
receive fifo and then 1024 pops, every operation running to completion; no pop
succeeds, so the successful pops do not return the pushed bytes. -/
theorem spsc_full_buffer_reads_empty :
    successfulBytes (runOps RX_FIFO
        ((List.replicate 1024 65).map FifoOp.push ++ List.replicate 1024 FifoOp.pop)
        (init_arm_uart_bufs bootState)).1 ≠
      pushedBytes ((List.replicate 1024 65).map FifoOp.push ++ List.replicate 1024 FifoOp.pop) := by
  have hfull := bufRead_after_full RX_FIFO (List.replicate 1024 65)
    (init_arm_uart_bufs bootState) (init_WF _ _) (init_empty _ _)
    (by rw [List.length_replicate]; rfl)
  obtain ⟨p1, _⟩ := pops_empty RX_FIFO 1024 _ hfull
  rw [runOps_pushes_pops, pushedBytes_pushes_pops,
    successfulBytes_of_flags_zero _ (by rw [pops_length]; exact p1)]
  intro h
  have hl := congrArg List.length h
  rw [List.length_replicate] at hl
  exact absurd hl (by decide)

/-- The push is not atomic: the write cursor is advanced before the byte is stored. A
`bufRead` that runs between `next_ptr` and the store of byte 66 on the initialised
transmit fifo returns flag 1 with the stale byte 0, and once the store has happened the
fifo reads empty, so byte 66 is never delivered. -/
theorem push_preempted_by_pop_loses_byte :
    (bufRead TX_FIFO (next_ptr TX_FIFO (init_arm_uart_bufs bootState)).2).1 = 1 ∧
    (bufRead TX_FIFO (next_ptr TX_FIFO (init_arm_uart_bufs bootState)).2).2.1 = 0 ∧
    (bufRead TX_FIFO
      (store (next_ptr TX_FIFO (init_arm_uart_bufs bootState)).1 66
        (bufRead TX_FIFO (next_ptr TX_FIFO (init_arm_uart_bufs bootState)).2).2.2)).1 = 0 := by
  decide

/-! ## C11: no distinct full state -/

/-- A run of at most `UART_BUF_SIZE` pushes leaves its `i`-th byte in the `i`-th slot
counted from the old write cursor. -/
theorem pushes_mem_slot (index : Fin 2) (l : List Nat) :
    ∀ s : State, WF (s.arm_uart_bufs index) → l.length ≤ UART_BUF_SIZE →
      ∀ i, i < l.length →
        (pushes index l s).mem ((s.arm_uart_bufs index).beg +
          ((s.arm_uart_bufs index).write_ptr - (s.arm_uart_bufs index).beg + i)
            % UART_BUF_SIZE) = l.getD i 0 := by
  induction l with
  | nil => intro s _ _ i hi; exact absurd hi (by simp)
  | cons v l ih =>
    intro s h hl i hi
    have h' := WF_push index v s h
    obtain ⟨he, h1, h2, h3, h4⟩ := h
    simp only [List.length_cons] at hl hi
    simp only [pushes]
    cases i with
    | zero =>
      have e : (s.arm_uart_bufs index).beg +
          ((s.arm_uart_bufs index).write_ptr - (s.arm_uart_bufs index).beg + 0)
            % UART_BUF_SIZE = (s.arm_uart_bufs index).write_ptr := by
        simp only [UART_BUF_SIZE] at *
        omega
      rw [e, pushes_mem_other index _ l _ h', push_mem, if_pos rfl]
      · rfl
      · intro j hj
        rw [push_buf_self]
        simp only [nxt, UART_BUF_SIZE] at *
        split_ifs <;> omega
    | succ i =>
      have := ih (push index v s) h' (by omega) i (by omega)
      rw [push_buf_self] at this
      simp only [List.getD_cons_succ]
      rw [← this]
      congr 1
      simp only [nxt, UART_BUF_SIZE] at *
      split_ifs <;> omega

/-- C11: starting from an empty buffer (cursors equal and inside the 1024-slot
storage), after exactly C = 1024 pushes with no intervening pop the read cursor equals
the write cursor although the 1024 bytes are stored, one in each slot; the next bufRead
returns flag 0 and does not advance the read cursor. -/
theorem full_buffer_reads_empty (index : Fin 2) (s : State) (bytes : List Nat)
    (hwf : WF (s.arm_uart_bufs index))
    (hempty : (s.arm_uart_bufs index).read_ptr = (s.arm_uart_bufs index).write_ptr)
    (hlen : bytes.length = 1024) :
    ((pushes index bytes s).arm_uart_bufs index).read_ptr =
      ((pushes index bytes s).arm_uart_bufs index).write_ptr ∧
    (∀ i, i < 1024 →
      (pushes index bytes s).mem (slot ((pushes index bytes s).arm_uart_bufs index) i) =
        bytes.getD i 0) ∧
    (bufRead index (pushes index bytes s)).1 = 0 ∧
    ((bufRead index (pushes index bytes s)).2.2.arm_uart_bufs index).read_ptr =
      ((pushes index bytes s).arm_uart_bufs index).read_ptr := by
  have hfull := bufRead_after_full index bytes s hwf hempty (by rw [hlen]; rfl)
  refine ⟨hfull, ?_, by rw [bufRead_flag, if_pos hfull], by rw [bufRead_buf_empty _ _ hfull]⟩
  intro i hi
  have hm := pushes_mem_slot index bytes s hwf (by rw [hlen]; decide) i (by omega)
  rw [← hm, pushes_buf index bytes s hwf]
  simp only [slot, hempty]

/-- C11, witness: 1024 bytes pushed into the initialised transmit fifo. -/
theorem full_buffer_reads_empty_witness :
    (bufRead TX_FIFO
      (pushes TX_FIFO (List.replicate 1024 65) (init_arm_uart_bufs bootState))).1 = 0 :=
  (full_buffer_reads_empty TX_FIFO (init_arm_uart_bufs bootState) (List.replicate 1024 65)
    (by decide) (by decide) (List.length_replicate 1024 65)).2.2.1

/-! ## C12, C13, C14: the effect of one pop and of one push -/

/-- C12: for every buffer whose read cursor differs from its write cursor, bufRead
returns flag 1 together with the byte stored at the read cursor, sets that slot to 0,
advances the read cursor by one slot with wraparound (from `end` to `beg`; with the
cursors inside the storage this is one slot further modulo 1024), and leaves the write
cursor, `beg`, `end`, every other address of RAM and the other fifo unchanged. -/
theorem pop_nonempty (index : Fin 2) (s : State)
    (hne : (s.arm_uart_bufs index).read_ptr ≠ (s.arm_uart_bufs index).write_ptr) :
    (bufRead index s).1 = 1 ∧
    (bufRead index s).2.1 = s.mem (s.arm_uart_bufs index).read_ptr ∧
    (bufRead index s).2.2.mem (s.arm_uart_bufs index).read_ptr = 0 ∧
    ((bufRead index s).2.2.arm_uart_bufs index).read_ptr =
      (if (s.arm_uart_bufs index).read_ptr = (s.arm_uart_bufs index).end_ then
        (s.arm_uart_bufs index).beg
       else (s.arm_uart_bufs index).read_ptr + 1) ∧
    (WF (s.arm_uart_bufs index) →
      ((bufRead index s).2.2.arm_uart_bufs index).read_ptr =
        (s.arm_uart_bufs index).beg +
          ((s.arm_uart_bufs index).read_ptr - (s.arm_uart_bufs index).beg + 1)
            % UART_BUF_SIZE) ∧
    ((bufRead index s).2.2.arm_uart_bufs index).write_ptr =
      (s.arm_uart_bufs index).write_ptr ∧
    ((bufRead index s).2.2.arm_uart_bufs index).beg = (s.arm_uart_bufs index).beg ∧
    ((bufRead index s).2.2.arm_uart_bufs index).end_ = (s.arm_uart_bufs index).end_ ∧
    (∀ a, a ≠ (s.arm_uart_bufs index).read_ptr → (bufRead index s).2.2.mem a = s.mem a) ∧
    (∀ j, j ≠ index → (bufRead index s).2.2.arm_uart_bufs j = s.arm_uart_bufs j) := by
  have hb := bufRead_buf_self index s hne
  refine ⟨by rw [bufRead_flag, if_neg hne], bufRead_byte index s,
    by rw [bufRead_mem, if_pos rfl], by rw [hb]; rfl, ?_, by rw [hb], by rw [hb], by rw [hb],
    fun a ha => by rw [bufRead_mem, if_neg ha], ?_⟩
  · intro hwf
    obtain ⟨he, h1, h2, h3, h4⟩ := hwf
    rw [hb]
    simp only [nxt, UART_BUF_SIZE] at *
    split_ifs <;> omega
  · intro j hj
    rw [bufRead_state]
    simp only [if_neg hne, if_neg hj]

/-- C12, witness: the pop of the one byte queued in `armedState`. -/
theorem pop_nonempty_witness :
    (bufRead TX_FIFO armedState).1 = 1 ∧
    (bufRead TX_FIFO armedState).2.1 = armedState.mem (armedState.arm_uart_bufs TX_FIFO).read_ptr :=
  ⟨(pop_nonempty TX_FIFO armedState (by decide)).1,
   (pop_nonempty TX_FIFO armedState (by decide)).2.1⟩

/-- C13: for every buffer state with cursors inside the storage and every byte, a push
(next_ptr followed by the store through the returned pointer) writes the byte into the
slot at the old write cursor, moves the write cursor to the next slot modulo C = 1024
(from the last slot back to the first), and leaves the read cursor, `beg`, `end`,
every other address of RAM and the other fifo unchanged.  The push is a total function
of the state, with no condition on the read cursor: it checks no bound and cannot fail. -/
theorem push_effect (index : Fin 2) (v : Nat) (s : State)
    (hwf : WF (s.arm_uart_bufs index)) :
    (push index v s).mem (s.arm_uart_bufs index).write_ptr = v ∧
    ((push index v s).arm_uart_bufs index).write_ptr =
      (s.arm_uart_bufs index).beg +
        ((s.arm_uart_bufs index).write_ptr - (s.arm_uart_bufs index).beg + 1)
          % UART_BUF_SIZE ∧
    ((s.arm_uart_bufs index).write_ptr = (s.arm_uart_bufs index).end_ →
      ((push index v s).arm_uart_bufs index).write_ptr = (s.arm_uart_bufs index).beg) ∧
    ((push index v s).arm_uart_bufs index).read_ptr = (s.arm_uart_bufs index).read_ptr ∧
    ((push index v s).arm_uart_bufs index).beg = (s.arm_uart_bufs index).beg ∧
    ((push index v s).arm_uart_bufs index).end_ = (s.arm_uart_bufs index).end_ ∧
    (∀ a, a ≠ (s.arm_uart_bufs index).write_ptr → (push index v s).mem a = s.mem a) ∧
    (∀ j, j ≠ index → (push index v s).arm_uart_bufs j = s.arm_uart_bufs j) := by
  have hb := push_buf_self index v s
  obtain ⟨he, h1, h2, h3, h4⟩ := hwf
  refine ⟨by rw [push_mem, if_pos rfl], ?_, ?_, by rw [hb], by rw [hb], by rw [hb],
    fun a ha => by rw [push_mem, if_neg ha], ?_⟩
  · rw [hb]
    simp only [nxt, UART_BUF_SIZE] at *
    split_ifs <;> omega
  · intro hend
    rw [hb]
    simp only [nxt, if_pos hend]
  · intro j hj
    rw [push_eq]
    simp only [if_neg hj]

/-- C13, witness: a push into the initialised receive fifo. -/
theorem push_effect_witness :
    (push RX_FIFO 88 (init_arm_uart_bufs bootState)).mem
      ((init_arm_uart_bufs bootState).arm_uart_bufs RX_FIFO).write_ptr = 88 :=
  (push_effect RX_FIFO 88 (init_arm_uart_bufs bootState) (by decide)).1

/-- C14: for every buffer whose read cursor equals its write cursor, bufRead returns
flag 0 together with the stale byte currently stored at the read cursor, sets that slot
to 0, and changes nothing else (the state after it is the state before it with that one
byte of RAM set to 0: both cursors, every other address and the other fifo are
unchanged); an immediately following bufRead returns byte value 0 with flag 0. -/
theorem pop_empty (index : Fin 2) (s : State)
    (he : (s.arm_uart_bufs index).read_ptr = (s.arm_uart_bufs index).write_ptr) :
    (bufRead index s).1 = 0 ∧
    (bufRead index s).2.1 = s.mem (s.arm_uart_bufs index).read_ptr ∧
    (bufRead index s).2.2.mem (s.arm_uart_bufs index).read_ptr = 0 ∧
    (∀ a, a ≠ (s.arm_uart_bufs index).read_ptr → (bufRead index s).2.2.mem a = s.mem a) ∧
    (bufRead index s).2.2.arm_uart_bufs = s.arm_uart_bufs ∧
    (bufRead index s).2.2 =
      { s with mem := fun a => if a = (s.arm_uart_bufs index).read_ptr then 0 else s.mem a } ∧
    (bufRead index (bufRead index s).2.2).1 = 0 ∧
    (bufRead index (bufRead index s).2.2).2.1 = 0 := by
  have hb := bufRead_buf_empty index s he
  refine ⟨by rw [bufRead_flag, if_pos he], bufRead_byte index s,
    by rw [bufRead_mem, if_pos rfl], fun a ha => by rw [bufRead_mem, if_neg ha], hb, ?_,
    by rw [bufRead_flag, hb, if_pos he], by rw [bufRead_byte, hb, bufRead_mem, if_pos rfl]⟩
  rw [bufRead_state]
  simp only [if_pos he]

/-- C14, witness: two reads of the empty receive fifo after a stale byte was left in
its first slot. -/
theorem pop_empty_witness :
    (bufRead RX_FIFO (store 0x20000400 7 (init_arm_uart_bufs bootState))).2.1 = 7 ∧
    (bufRead RX_FIFO
      (bufRead RX_FIFO (store 0x20000400 7 (init_arm_uart_bufs bootState))).2.2).2.1 = 0 :=
  ⟨((pop_empty RX_FIFO (store 0x20000400 7 (init_arm_uart_bufs bootState))
      (by decide)).2.1).trans (by decide),
   (pop_empty RX_FIFO (store 0x20000400 7 (init_arm_uart_bufs bootState))
      (by decide)).2.2.2.2.2.2.2⟩

/-! ## C15: initialisation -/

/-- C15: from every prior state, after init_arm_uart_bufs the read cursor and the
write cursor of each fifo both point to the first slot of that fifo's own storage
(`uart_tx` for TX_FIFO, `uart_rx` for RX_FIFO), the end marker is the last slot
(first slot + 1023), the arrays are where they were, and both fifos are empty: bufRead
on either index returns flag 0. -/
theorem init_resets_cursors (s : State) :
    (init_arm_uart_bufs s).arm_uart_bufs TX_FIFO =
      { beg := s.uart_tx, end_ := s.uart_tx + 1023,
        read_ptr := s.uart_tx, write_ptr := s.uart_tx } ∧
    (init_arm_uart_bufs s).arm_uart_bufs RX_FIFO =
      { beg := s.uart_rx, end_ := s.uart_rx + 1023,
        read_ptr := s.uart_rx, write_ptr := s.uart_rx } ∧
    (init_arm_uart_bufs s).uart_tx = s.uart_tx ∧
    (init_arm_uart_bufs s).uart_rx = s.uart_rx ∧
    (∀ index : Fin 2, (bufRead index (init_arm_uart_bufs s)).1 = 0) := by
  refine ⟨by rw [init_buf_tx]; rfl, by rw [init_buf_rx]; rfl, rfl, rfl, ?_⟩
  intro index
  rw [bufRead_flag, if_pos (init_empty s index)]

/-! ## C16: interrupt dispatch -/

theorem uart_rx_frame (fuel : Nat) :
    ∀ (s s' : State), uart_rx fuel s = some s' →
      s'.intr_ack = s.intr_ack ∧ s'.intr_status_reads = s.intr_status_reads := by
  induction fuel with
  | zero => intro s s' h; simp [uart_rx] at h
  | succ fuel ih =>
    intro s s' h
    simp only [uart_rx] at h
    split_ifs at h with hc
    · obtain ⟨a, b⟩ := ih _ _ h
      rw [a, b, uart_rx_body_eq, push_eq]
      exact ⟨rfl, rfl⟩
    · simp only [Option.some.injEq] at h
      subst h
      exact ⟨rfl, rfl⟩

theorem uart_tx_loop_frame (fuel : Nat) :
    ∀ (ret : Int) (s : State) (ret' : Int) (s' : State),
      uart_tx_loop fuel ret s = some (ret', s') →
      s'.intr_ack = s.intr_ack ∧ s'.intr_status_reads = s.intr_status_reads := by
  induction fuel with
  | zero => intro ret s ret' s' h; simp [uart_tx_loop] at h
  | succ fuel ih =>
    intro ret s ret' s' h
    simp only [uart_tx_loop] at h
    split_ifs at h with hc hr
    · obtain ⟨a, b⟩ := ih _ _ _ _ h
      rw [a, b, bufRead_state]
      exact ⟨rfl, rfl⟩
    · obtain ⟨a, b⟩ := ih _ _ _ _ h
      rw [a, b, bufRead_state]
      exact ⟨rfl, rfl⟩
    · simp only [Option.some.injEq, Prod.mk.injEq] at h
      obtain ⟨_, hs⟩ := h
      subst hs
      exact ⟨rfl, rfl⟩

theorem uart_tx_frame (fuel : Nat) (s s' : State) (h : uart_tx fuel s = some s') :
    s'.intr_ack = s.intr_ack ∧ s'.intr_status_reads = s.intr_status_reads := by
  simp only [uart_tx] at h
  split_ifs at h with hE
  · cases hloop : uart_tx_loop fuel 1 (readStatus s).2 with
    | none => rw [hloop] at h; simp at h
    | some p =>
      obtain ⟨ret, s2⟩ := p
      rw [hloop] at h
      obtain ⟨a, b⟩ := uart_tx_loop_frame fuel 1 _ ret s2 hloop
      simp only at h
      split_ifs at h with hr
      · simp only [Option.some.injEq] at h
        subst h
        exact ⟨a, b⟩
      · simp only [Option.some.injEq] at h
        subst h
        exact ⟨a, b⟩
  · simp only [Option.some.injEq] at h
    subst h
    exact ⟨rfl, rfl⟩

/-- C16: for every state and vector, uart_irq_interrupt reads the interrupt status
register once and dispatches on the value read: with neither bit set it changes
nothing (the state is the old one with that one read recorded); with bit 0x04 set it
sets UART_INT_RX in the ack register and runs uart_rx; with bit 0x08 set it sets
UART_INT_TX in the ack register and runs uart_tx; with both set it does the receive
part first and the transmit part on the state the receive part left.  In every run
that returns, the status register was read exactly once and the ack register gained
exactly the bits that were pending. -/
theorem irq_dispatch (fuel vector : Nat) (s : State) :
    ((readIntrStatus s).1 &&& UART_INT_RX = 0 → (readIntrStatus s).1 &&& UART_INT_TX = 0 →
      uart_irq_interrupt fuel vector s =
        some { s with intr_status_reads := s.intr_status_reads + 1 }) ∧
    ((readIntrStatus s).1 &&& UART_INT_RX ≠ 0 → (readIntrStatus s).1 &&& UART_INT_TX = 0 →
      uart_irq_interrupt fuel vector s =
        uart_rx fuel { (readIntrStatus s).2 with intr_ack := s.intr_ack ||| UART_INT_RX }) ∧
    ((readIntrStatus s).1 &&& UART_INT_RX = 0 → (readIntrStatus s).1 &&& UART_INT_TX ≠ 0 →
      uart_irq_interrupt fuel vector s =
        uart_tx fuel { (readIntrStatus s).2 with intr_ack := s.intr_ack ||| UART_INT_TX }) ∧
    ((readIntrStatus s).1 &&& UART_INT_RX ≠ 0 → (readIntrStatus s).1 &&& UART_INT_TX ≠ 0 →
      uart_irq_interrupt fuel vector s =
        (uart_rx fuel { (readIntrStatus s).2 with intr_ack := s.intr_ack ||| UART_INT_RX }).bind
          (fun s1 => uart_tx fuel { s1 with intr_ack := s1.intr_ack ||| UART_INT_TX })) ∧
    (∀ s', uart_irq_interrupt fuel vector s = some s' →
      s'.intr_status_reads = s.intr_status_reads + 1 ∧
      s'.intr_ack =
        (if (readIntrStatus s).1 &&& UART_INT_TX ≠ 0 then
          (if (readIntrStatus s).1 &&& UART_INT_RX ≠ 0 then s.intr_ack ||| UART_INT_RX
           else s.intr_ack) ||| UART_INT_TX
         else
          (if (readIntrStatus s).1 &&& UART_INT_RX ≠ 0 then s.intr_ack ||| UART_INT_RX
           else s.intr_ack))) := by
  have e : ({ (readIntrStatus s).2 with
      intr_ack := (readIntrStatus s).2.intr_ack ||| UART_INT_RX } : State) =
      { (readIntrStatus s).2 with intr_ack := s.intr_ack ||| UART_INT_RX } := rfl
  have c1 : (readIntrStatus s).1 &&& UART_INT_RX = 0 → (readIntrStatus s).1 &&& UART_INT_TX = 0 →
      uart_irq_interrupt fuel vector s =
        some { s with intr_status_reads := s.intr_status_reads + 1 } := by
    intro hr ht
    simp only [uart_irq_interrupt, hr, ht, ne_eq, not_true_eq_false, if_false]
    rfl
  have c2 : (readIntrStatus s).1 &&& UART_INT_RX ≠ 0 → (readIntrStatus s).1 &&& UART_INT_TX = 0 →
      uart_irq_interrupt fuel vector s =
        uart_rx fuel { (readIntrStatus s).2 with intr_ack := s.intr_ack ||| UART_INT_RX } := by
    intro hr ht
    simp only [uart_irq_interrupt, ht, ne_eq, not_true_eq_false, if_false]
    rw [if_pos hr, e]
    cases uart_rx fuel { (readIntrStatus s).2 with
      intr_ack := s.intr_ack ||| UART_INT_RX } <;> rfl
  have c3 : (readIntrStatus s).1 &&& UART_INT_RX = 0 → (readIntrStatus s).1 &&& UART_INT_TX ≠ 0 →
      uart_irq_interrupt fuel vector s =
        uart_tx fuel { (readIntrStatus s).2 with intr_ack := s.intr_ack ||| UART_INT_TX } := by
    intro hr ht
    simp only [uart_irq_interrupt, hr, ne_eq, not_true_eq_false, if_false]
    rw [if_pos ht]
    rfl
  have c4 : (readIntrStatus s).1 &&& UART_INT_RX ≠ 0 → (readIntrStatus s).1 &&& UART_INT_TX ≠ 0 →
      uart_irq_interrupt fuel vector s =
        (uart_rx fuel { (readIntrStatus s).2 with intr_ack := s.intr_ack ||| UART_INT_RX }).bind
          (fun s1 => uart_tx fuel { s1 with intr_ack := s1.intr_ack ||| UART_INT_TX }) := by
    intro hr ht
    simp only [uart_irq_interrupt]
    rw [if_pos hr, e]
    cases uart_rx fuel { (readIntrStatus s).2 with
      intr_ack := s.intr_ack ||| UART_INT_RX } with
    | none => rfl
    | some s1 =>
      simp only [Option.bind]
      rw [if_pos ht]
  refine ⟨c1, c2, c3, c4, ?_⟩
  intro s' h
  by_cases hr : (readIntrStatus s).1 &&& UART_INT_RX = 0
  · by_cases ht : (readIntrStatus s).1 &&& UART_INT_TX = 0
    · rw [c1 hr ht] at h
      simp only [Option.some.injEq] at h
      subst h
      simp [hr, ht]
    · rw [c3 hr ht] at h
      obtain ⟨a, b⟩ := uart_tx_frame fuel _ s' h
      rw [a, b]
      simp only [readIntrStatus] at hr ht ⊢
      simp [hr, ht]
  · by_cases ht : (readIntrStatus s).1 &&& UART_INT_TX = 0
    · rw [c2 hr ht] at h
      obtain ⟨a, b⟩ := uart_rx_frame fuel _ s' h
      rw [a, b]
      simp only [readIntrStatus] at hr ht ⊢
      simp [hr, ht]
    · rw [c4 hr ht] at h
      cases hrx : uart_rx fuel { (readIntrStatus s).2 with
          intr_ack := s.intr_ack ||| UART_INT_RX } with
      | none => rw [hrx] at h; simp at h
      | some s1 =>
        rw [hrx] at h
        simp only [Option.bind] at h
        obtain ⟨a1, b1⟩ := uart_rx_frame fuel _ s1 hrx
        obtain ⟨a, b⟩ := uart_tx_frame fuel _ s' h
        rw [a, b]
        simp only [a1, b1]
        simp only [readIntrStatus] at hr ht ⊢
        simp [hr, ht]

/-- C16, instance: on `armedState` with nothing pending the handler only records its
one read of the interrupt status register. -/
theorem irq_dispatch_witness :
    uart_irq_interrupt 5 0 armedState =
      some { armedState with intr_status_reads := armedState.intr_status_reads + 1 } :=
  (irq_dispatch 5 0 armedState).1 (by decide) (by decide)

/-! ## C17: the ring buffer refines a queue -/

theorem runOps_refines (index : Fin 2) (ops : List FifoOp) :
    ∀ (s : State) (q : List Nat), Holds s index q → withinCapacity 1023 q ops = true →
      (runOps index ops s).1.map observed = queueResults q ops ∧
      Holds (runOps index ops s).2 index (queueAfter q ops) := by
  induction ops with
  | nil => intro s q h _; exact ⟨rfl, h⟩
  | cons op ops ih =>
    intro s q h hc
    simp only [withinCapacity, Bool.and_eq_true, decide_eq_true_eq] at hc
    obtain ⟨_, hc2⟩ := hc
    cases op with
    | push v =>
      have hl := withinCapacity_length _ _ _ hc2
      simp only [queueStep, List.length_append, List.length_singleton] at hl
      have hp := Holds_push index v s q h (by simp only [UART_BUF_SIZE]; omega)
      exact ih (push index v s) (queueStep q (FifoOp.push v)) hp hc2
    | pop =>
      cases q with
      | nil =>
        obtain ⟨hf, hh⟩ := Holds_pop_nil index s h
        obtain ⟨r1, r2⟩ := ih (bufRead index s).2.2 (queueStep [] FifoOp.pop) hh hc2
        refine ⟨?_, r2⟩
        show observed ((bufRead index s).1, (bufRead index s).2.1) ::
          (runOps index ops (bufRead index s).2.2).1.map observed = _
        rw [r1]
        simp only [observed, hf]
        rfl
      | cons a q =>
        obtain ⟨hf, hb, hh⟩ := Holds_pop index a s q h
        obtain ⟨r1, r2⟩ := ih (bufRead index s).2.2 (queueStep (a :: q) FifoOp.pop) hh hc2
        refine ⟨?_, r2⟩
        show observed ((bufRead index s).1, (bufRead index s).2.1) ::
          (runOps index ops (bufRead index s).2.2).1.map observed = _
        rw [r1]
        simp only [observed, hf, hb]
        rfl

/-- C17: for every finite sequence of push and pop operations applied one after
another to an initially empty buffer (cursors equal and inside the 1024-slot storage)
in which the number of pushed-but-not-yet-popped bytes never exceeds C - 1 = 1023, the
ring buffer behaves exactly like the abstract FIFO queue: every pop returns what the
queue returns (flag 1 with the oldest unpopped byte, or flag 0 on the empty queue), and
the bytes left between the cursors are the bytes left in the queue, however often the
cursors have wrapped. -/
theorem ring_refines_queue (index : Fin 2) (s : State) (ops : List FifoOp)
    (hwf : WF (s.arm_uart_bufs index))
    (hempty : (s.arm_uart_bufs index).read_ptr = (s.arm_uart_bufs index).write_ptr)
    (hcap : withinCapacity 1023 [] ops = true) :
    (runOps index ops s).1.map observed = queueResults [] ops ∧
    Holds (runOps index ops s).2 index (queueAfter [] ops) :=
  runOps_refines index ops s [] (Holds_nil s index hwf hempty) hcap

/-- C17, witness: pushes and pops interleaved on the initialised receive fifo. -/
theorem ring_refines_queue_witness :
    (runOps RX_FIFO
      [FifoOp.pop, FifoOp.push 7, FifoOp.push 8, FifoOp.pop, FifoOp.pop, FifoOp.pop, FifoOp.push 9]
      (init_arm_uart_bufs bootState)).1.map observed =
    queueResults []
      [FifoOp.pop, FifoOp.push 7, FifoOp.push 8, FifoOp.pop, FifoOp.pop, FifoOp.pop, FifoOp.push 9] :=
  (ring_refines_queue RX_FIFO (init_arm_uart_bufs bootState)
    [FifoOp.pop, FifoOp.push 7, FifoOp.push 8, FifoOp.pop, FifoOp.pop, FifoOp.pop, FifoOp.push 9]
    (by decide) (by decide) (by decide)).1

/-! ## C18: the drain routine conserves bytes -/

theorem queued_length (index : Fin 2) (s : State) :
    (queued index s).length = occupancy (s.arm_uart_bufs index) := by
  simp [queued]

/-- A well-formed fifo holds its queued bytes. -/
theorem Holds_queued (index : Fin 2) (s : State) (hwf : WF (s.arm_uart_bufs index)) :
    Holds s index (queued index s) := by
  refine ⟨hwf, ?_, ?_, ?_⟩
  · rw [queued_length]
    simp only [occupancy, UART_BUF_SIZE]
    omega
  · rw [queued_length]
    obtain ⟨he, h1, h2, h3, h4⟩ := hwf
    simp only [occupancy, slot, UART_BUF_SIZE] at *
    omega
  · intro i hi
    rw [queued_length] at hi
    simp only [queued, List.getD_eq_getElem?_getD, List.getElem?_map, List.getElem?_range hi,
      Option.map_some', Option.getD_some]

/-- The bytes a fifo holds are its queued bytes. -/
theorem Holds_unique (index : Fin 2) (s : State) (q : List Nat) (h : Holds s index q) :
    q = queued index s := by
  obtain ⟨⟨he, h1, h2, h3, h4⟩, hl, hw, hm⟩ := h
  have hlen : q.length = occupancy (s.arm_uart_bufs index) := by
    simp only [occupancy, slot, UART_BUF_SIZE] at *
    omega
  apply List.ext_getElem
  · rw [queued_length, hlen]
  · intro i hi1 hi2
    have := hm i hi1
    rw [List.getD_eq_getElem _ _ hi1] at this
    rw [← this]
    simp [queued]

/-- The drain loop on a fifo holding `q`, whatever the status register reports: with
`q.length + 2` units of fuel it terminates, and the bytes it wrote followed by the
bytes it left are `q`. -/
theorem uart_tx_loop_conserves (q : List Nat) :
    ∀ (s : State) (fuel : Nat), Holds s TX_FIFO q → q.length + 2 ≤ fuel →
      ∃ ret' s' w r, uart_tx_loop fuel 1 s = some (ret', s') ∧
        s'.tx_written = s.tx_written ++ w ∧ Holds s' TX_FIFO r ∧ w ++ r = q := by
  induction q with
  | nil =>
    intro s fuel h hf
    obtain ⟨f, rfl⟩ : ∃ f, fuel = f + 2 := ⟨fuel - 2, by simp only [List.length_nil] at hf; omega⟩
    have hs1 : Holds (readStatus s).2 TX_FIFO [] := Holds_congr s _ _ _ rfl rfl h
    by_cases hfull : (readStatus s).1 &&& XMT_FIFO_FULL = 0
    · obtain ⟨hflag, hh⟩ := Holds_pop_nil TX_FIFO _ hs1
      refine ⟨0, (readStatus (bufRead TX_FIFO (readStatus s).2).2.2).2, [], [], ?_, ?_,
        Holds_congr _ _ _ _ rfl rfl hh, rfl⟩
      · simp only [uart_tx_loop, hfull, hflag]
        simp
      · simp
    · refine ⟨1, (readStatus s).2, [], [], ?_, by simp, hs1, rfl⟩
      simp only [uart_tx_loop]
      rw [if_neg (fun hc => hfull hc.1)]
  | cons a q ih =>
    intro s fuel h hf
    obtain ⟨f, rfl⟩ : ∃ f, fuel = f + 1 := ⟨fuel - 1, by simp only [List.length_cons] at hf; omega⟩
    have hs1 : Holds (readStatus s).2 TX_FIFO (a :: q) := Holds_congr s _ _ _ rfl rfl h
    by_cases hfull : (readStatus s).1 &&& XMT_FIFO_FULL = 0
    · obtain ⟨hflag, hbyte, hh⟩ := Holds_pop TX_FIFO a _ q hs1
      have hw : Holds (writeTxData a (bufRead TX_FIFO (readStatus s).2).2.2) TX_FIFO q :=
        Holds_congr _ _ _ _ rfl rfl hh
      obtain ⟨ret', s', w, r, h1, h2, h3, h4⟩ := ih _ f hw
        (by simp only [List.length_cons] at hf; omega)
      refine ⟨ret', s', a :: w, r, ?_, ?_, h3, by rw [List.cons_append, h4]⟩
      · simp only [uart_tx_loop, hfull, hflag, hbyte]
        simpa using h1
      · rw [h2]
        simp [writeTxData]
    · refine ⟨1, (readStatus s).2, [], a :: q, ?_, by simp, hs1, rfl⟩
      simp only [uart_tx_loop]
      rw [if_neg (fun hc => hfull hc.1)]

/-- C18: for every TX buffer state with cursors inside the storage and every sequence
of values returned by the status register, uart_tx terminates (given two units of fuel
more than there are bytes queued), and the bytes it writes to the TX data register
followed by the bytes still queued in the TX buffer afterwards (from read cursor up to
write cursor) are the bytes queued before the run; in particular it writes nothing
when the buffer was empty. -/
theorem drain_conserves_bytes (s : State) (fuel : Nat)
    (hwf : WF (s.arm_uart_bufs TX_FIFO))
    (hfuel : occupancy (s.arm_uart_bufs TX_FIFO) + 2 ≤ fuel) :
    ∃ s' w, uart_tx fuel s = some s' ∧
      s'.tx_written = s.tx_written ++ w ∧
      w ++ queued TX_FIFO s' = queued TX_FIFO s ∧
      ((s.arm_uart_bufs TX_FIFO).read_ptr = (s.arm_uart_bufs TX_FIFO).write_ptr →
        s'.tx_written = s.tx_written) := by
  have hq := Holds_queued TX_FIFO s hwf
  have key : ∀ (s' : State) (w : List Nat), s'.tx_written = s.tx_written ++ w →
      w ++ queued TX_FIFO s' = queued TX_FIFO s →
      ((s.arm_uart_bufs TX_FIFO).read_ptr = (s.arm_uart_bufs TX_FIFO).write_ptr →
        s'.tx_written = s.tx_written) := by
    intro s' w h1 h2 he
    have hnil := (Holds_empty_iff s TX_FIFO _ hq).1 he
    rw [hnil] at h2
    have hw : w = [] := (List.append_eq_nil.1 h2).1
    rw [h1, hw, List.append_nil]
  by_cases hE : (readStatus s).1 &&& XMT_FIFO_EMPTY ≠ 0
  · obtain ⟨ret', s2, w, r, h1, h2, h3, h4⟩ := uart_tx_loop_conserves (queued TX_FIFO s)
      (readStatus s).2 fuel (Holds_congr s _ _ _ rfl rfl hq) (by rw [queued_length]; exact hfuel)
    have hr := Holds_unique TX_FIFO s2 r h3
    by_cases hret : ret' = 0
    · refine ⟨{ s2 with intr_mask := (s2.intr_mask &&& (0xFFFFFFFF - UART_INT_TX)) % 256 }, w,
        ?_, h2, ?_, ?_⟩
      · simp only [uart_tx]
        rw [if_pos hE, h1]
        simp only [hret, if_true]
      · show w ++ queued TX_FIFO s2 = _
        rw [← hr, h4]
      · exact key s2 w h2 (by rw [← hr, h4])
    · refine ⟨s2, w, ?_, h2, by rw [← hr, h4], key s2 w h2 (by rw [← hr, h4])⟩
      simp only [uart_tx]
      rw [if_pos hE, h1]
      simp only [hret, if_false]
  · refine ⟨(readStatus s).2, [], ?_, by simp, rfl, fun _ => rfl⟩
    simp only [uart_tx]
    rw [if_neg hE]

/-- C18, witness: the drain of `lateFullState`, whose hardware reports full after one
byte. -/
theorem drain_conserves_bytes_witness :
    ∃ s' w, uart_tx 3 lateFullState = some s' ∧
      s'.tx_written = lateFullState.tx_written ++ w ∧
      w ++ queued TX_FIFO s' = queued TX_FIFO lateFullState ∧
      ((lateFullState.arm_uart_bufs TX_FIFO).read_ptr =
          (lateFullState.arm_uart_bufs TX_FIFO).write_ptr →
        s'.tx_written = lateFullState.tx_written) :=
  drain_conserves_bytes lateFullState 3 (by decide) (by decide)

/-! ## C19: the cursor bounds invariant -/

theorem FrameKept_refl (s : State) : FrameKept s s :=
  ⟨rfl, rfl, fun _ => ⟨rfl, rfl, id⟩⟩

theorem FrameKept_trans (s t u : State) (h1 : FrameKept s t) (h2 : FrameKept t u) :
    FrameKept s u := by
  obtain ⟨a1, b1, c1⟩ := h1
  obtain ⟨a2, b2, c2⟩ := h2
  refine ⟨a2.trans a1, b2.trans b1, fun i => ?_⟩
  obtain ⟨x1, y1, z1⟩ := c1 i
  obtain ⟨x2, y2, z2⟩ := c2 i
  exact ⟨x2.trans x1, y2.trans y1, fun h => z2 (z1 h)⟩

theorem FrameKept_of_eq (s t : State) (hb : t.arm_uart_bufs = s.arm_uart_bufs)
    (h1 : t.uart_tx = s.uart_tx) (h2 : t.uart_rx = s.uart_rx) : FrameKept s t := by
  refine ⟨h1, h2, fun i => ?_⟩
  rw [hb]
  exact ⟨rfl, rfl, id⟩

theorem CursorInv_of_FrameKept (s t : State) (h : FrameKept s t) (hs : CursorInv s) :
    CursorInv t := by
  obtain ⟨a, b, c⟩ := h
  intro i
  obtain ⟨x, y, z⟩ := c i
  obtain ⟨p, q⟩ := hs i
  refine ⟨?_, z q⟩
  rw [x, p]
  simp only [arrayOf, a, b]

theorem WF_bufRead (index : Fin 2) (s : State) (h : WF (s.arm_uart_bufs index)) :
    WF ((bufRead index s).2.2.arm_uart_bufs index) := by
  by_cases he : (s.arm_uart_bufs index).read_ptr = (s.arm_uart_bufs index).write_ptr
  · rw [bufRead_buf_empty index s he]
    exact h
  · obtain ⟨h0, h1, h2, h3, h4⟩ := h
    unfold WF
    rw [bufRead_buf_self index s he]
    simp only [nxt, UART_BUF_SIZE] at *
    refine ⟨h0, ?_, ?_, h3, h4⟩ <;> split_ifs <;> omega

theorem FrameKept_push (index : Fin 2) (v : Nat) (s : State) :
    FrameKept s (push index v s) := by
  refine ⟨by rw [push_eq], by rw [push_eq], fun i => ?_⟩
  by_cases hi : i = index
  · subst hi
    exact ⟨by rw [push_buf_self], by rw [push_buf_self], WF_push i v s⟩
  · have e : (push index v s).arm_uart_bufs i = s.arm_uart_bufs i := by
      rw [push_eq]
      simp only [if_neg hi]
    rw [e]
    exact ⟨rfl, rfl, id⟩

theorem FrameKept_bufRead (index : Fin 2) (s : State) :
    FrameKept s (bufRead index s).2.2 := by
  refine ⟨by rw [bufRead_state], by rw [bufRead_state], fun i => ?_⟩
  by_cases he : (s.arm_uart_bufs index).read_ptr = (s.arm_uart_bufs index).write_ptr
  · rw [bufRead_buf_empty index s he]
    exact ⟨rfl, rfl, id⟩
  · by_cases hi : i = index
    · subst hi
      exact ⟨by rw [bufRead_buf_self i s he], by rw [bufRead_buf_self i s he], WF_bufRead i s⟩
    · have e : (bufRead index s).2.2.arm_uart_bufs i = s.arm_uart_bufs i := by
        rw [bufRead_state]
        simp only [if_neg he, if_neg hi]
      rw [e]
      exact ⟨rfl, rfl, id⟩

theorem FrameKept_uart_send_loop (len : Nat) :
    ∀ (buf : List Nat) (s : State), FrameKept s (uart_send_loop buf len s) := by
  induction len with
  | zero => intro buf s; exact FrameKept_refl s
  | succ len ih =>
    intro buf s
    exact FrameKept_trans _ _ _ (FrameKept_push TX_FIFO (buf.headD 0) s) (ih _ _)

theorem FrameKept_uart_send (buf : List Nat) (len : Nat) (s : State) :
    FrameKept s (uart_send buf len s).2 :=
  FrameKept_trans _ _ _ (FrameKept_uart_send_loop len buf s) (FrameKept_of_eq _ _ rfl rfl rfl)

theorem FrameKept_uart_rx (fuel : Nat) :
    ∀ (s s' : State), uart_rx fuel s = some s' → FrameKept s s' := by
  induction fuel with
  | zero => intro s s' h; simp [uart_rx] at h
  | succ fuel ih =>
    intro s s' h
    simp only [uart_rx] at h
    split_ifs at h with hc
    · have h1 : FrameKept s (uart_rx_body (readStatus s).2) := by
        rw [uart_rx_body_eq]
        exact FrameKept_trans s (push RX_FIFO (s.hw_rx s.rx_reads) s) _
          (FrameKept_push RX_FIFO _ s) (FrameKept_of_eq _ _ rfl rfl rfl)
      exact FrameKept_trans _ _ _ h1 (ih _ _ h)
    · simp only [Option.some.injEq] at h
      subst h
      exact FrameKept_of_eq _ _ rfl rfl rfl

theorem FrameKept_uart_tx_loop (fuel : Nat) :
    ∀ (ret : Int) (s : State) (ret' : Int) (s' : State),
      uart_tx_loop fuel ret s = some (ret', s') → FrameKept s s' := by
  induction fuel with
  | zero => intro ret s ret' s' h; simp [uart_tx_loop] at h
  | succ fuel ih =>
    intro ret s ret' s' h
    simp only [uart_tx_loop] at h
    have hstep : FrameKept s (bufRead TX_FIFO (readStatus s).2).2.2 :=
      FrameKept_trans _ _ _ (FrameKept_of_eq s (readStatus s).2 rfl rfl rfl)
        (FrameKept_bufRead TX_FIFO _)
    split_ifs at h with hc hr
    · have h2 := ih _ _ _ _ h
      have h1 : FrameKept s (writeTxData (bufRead TX_FIFO (readStatus s).2).2.1
          (bufRead TX_FIFO (readStatus s).2).2.2) :=
        FrameKept_trans _ _ _ hstep (FrameKept_of_eq _ _ rfl rfl rfl)
      exact FrameKept_trans _ _ _ h1 h2
    · have h2 := ih _ _ _ _ h
      exact FrameKept_trans _ _ _ hstep h2
    · simp only [Option.some.injEq, Prod.mk.injEq] at h
      obtain ⟨_, hs⟩ := h
      subst hs
      exact FrameKept_of_eq _ _ rfl rfl rfl

theorem FrameKept_uart_tx (fuel : Nat) (s s' : State) (h : uart_tx fuel s = some s') :
    FrameKept s s' := by
  simp only [uart_tx] at h
  split_ifs at h with hE
  · cases hloop : uart_tx_loop fuel 1 (readStatus s).2 with
    | none => rw [hloop] at h; simp at h
    | some p =>
      obtain ⟨ret, s2⟩ := p
      rw [hloop] at h
      have hk : FrameKept s s2 :=
        FrameKept_trans _ _ _ (FrameKept_of_eq s (readStatus s).2 rfl rfl rfl)
          (FrameKept_uart_tx_loop fuel 1 _ ret s2 hloop)
      simp only at h
      split_ifs at h with hr
      · simp only [Option.some.injEq] at h
        subst h
        exact FrameKept_trans _ _ _ hk (FrameKept_of_eq _ _ rfl rfl rfl)
      · simp only [Option.some.injEq] at h
        subst h
        exact hk
  · simp only [Option.some.injEq] at h
    subst h
    exact FrameKept_of_eq _ _ rfl rfl rfl

theorem FrameKept_uart_irq_interrupt (fuel vector : Nat) (s s' : State)
    (h : uart_irq_interrupt fuel vector s = some s') : FrameKept s s' := by
  simp only [uart_irq_interrupt] at h
  have key : ∀ s1 : State, FrameKept s s1 →
      (if (readIntrStatus s).1 &&& UART_INT_TX ≠ 0 then
        uart_tx fuel { s1 with intr_ack := s1.intr_ack ||| UART_INT_TX }
      else some s1) = some s' → FrameKept s s' := by
    intro s1 hk h2
    split_ifs at h2 with hT
    · have h3 := FrameKept_uart_tx fuel _ s' h2
      have h1 : FrameKept s { s1 with intr_ack := s1.intr_ack ||| UART_INT_TX } :=
        FrameKept_trans _ _ _ hk (FrameKept_of_eq _ _ rfl rfl rfl)
      exact FrameKept_trans _ _ _ h1 h3
    · simp only [Option.some.injEq] at h2
      subst h2
      exact hk
  by_cases hR : (readIntrStatus s).1 &&& UART_INT_RX ≠ 0
  · rw [if_pos hR] at h
    cases hrx : uart_rx fuel { (readIntrStatus s).2 with
        intr_ack := (readIntrStatus s).2.intr_ack ||| UART_INT_RX } with
    | none => rw [hrx] at h; simp at h
    | some s1 =>
      rw [hrx] at h
      have h3 := FrameKept_uart_rx fuel _ s1 hrx
      have h1 : FrameKept s { (readIntrStatus s).2 with
          intr_ack := (readIntrStatus s).2.intr_ack ||| UART_INT_RX } :=
        FrameKept_of_eq _ _ rfl rfl rfl
      exact key s1 (FrameKept_trans _ _ _ h1 h3) h
  · rw [if_neg hR] at h
    exact key (readIntrStatus s).2 (FrameKept_of_eq _ _ rfl rfl rfl) h

theorem CursorInv_init (s : State) : CursorInv (init_arm_uart_bufs s) := by
  intro i
  refine ⟨?_, init_WF s i⟩
  have hi : i = TX_FIFO ∨ i = RX_FIFO := by
    unfold TX_FIFO RX_FIFO; omega
  rcases hi with h | h <;> subst h
  · rw [init_buf_tx]; rfl
  · rw [init_buf_rx]; rfl

/-- C19: init_arm_uart_bufs establishes, and a push via next_ptr, bufRead with either
index, uart_send, uart_rx, uart_tx and uart_irq_interrupt preserve, that each fifo
starts at its own array with `end = beg + 1023` and has `beg ≤ read_ptr ≤ end` and
`beg ≤ write_ptr ≤ end`; none of them modifies `beg`, `end` or the place of the arrays
(`FrameKept`); and under the invariant the byte a push stores and the byte bufRead
reads and clears lie inside the fifo's own 1024-byte array. -/
theorem cursor_bounds_invariant :
    (∀ s : State, CursorInv (init_arm_uart_bufs s)) ∧
    (∀ (index : Fin 2) (v : Nat) (s : State), CursorInv s →
      CursorInv (push index v s) ∧ FrameKept s (push index v s) ∧
      arrayOf s index ≤ (next_ptr index s).1 ∧ (next_ptr index s).1 ≤ arrayOf s index + 1023) ∧
    (∀ (index : Fin 2) (s : State), CursorInv s →
      CursorInv (bufRead index s).2.2 ∧ FrameKept s (bufRead index s).2.2 ∧
      arrayOf s index ≤ (s.arm_uart_bufs index).read_ptr ∧
      (s.arm_uart_bufs index).read_ptr ≤ arrayOf s index + 1023) ∧
    (∀ (buf : List Nat) (len : Nat) (s : State), CursorInv s →
      CursorInv (uart_send buf len s).2 ∧ FrameKept s (uart_send buf len s).2) ∧
    (∀ (fuel : Nat) (s s' : State), uart_rx fuel s = some s' → CursorInv s →
      CursorInv s' ∧ FrameKept s s') ∧
    (∀ (fuel : Nat) (s s' : State), uart_tx fuel s = some s' → CursorInv s →
      CursorInv s' ∧ FrameKept s s') ∧
    (∀ (fuel vector : Nat) (s s' : State), uart_irq_interrupt fuel vector s = some s' →
      CursorInv s → CursorInv s' ∧ FrameKept s s') := by
  refine ⟨CursorInv_init, ?_, ?_, ?_, ?_, ?_, ?_⟩
  · intro index v s hs
    obtain ⟨hb, he, _, _, h3, h4⟩ := hs index
    refine ⟨CursorInv_of_FrameKept _ _ (FrameKept_push index v s) hs, FrameKept_push index v s,
      ?_, ?_⟩
    · rw [next_ptr_fst, ← hb]; exact h3
    · rw [next_ptr_fst, ← hb]
      simp only [UART_BUF_SIZE] at he
      omega
  · intro index s hs
    obtain ⟨hb, he, h1, h2, _, _⟩ := hs index
    refine ⟨CursorInv_of_FrameKept _ _ (FrameKept_bufRead index s) hs,
      FrameKept_bufRead index s, ?_, ?_⟩
    · rw [← hb]; exact h1
    · rw [← hb]
      simp only [UART_BUF_SIZE] at he
      omega
  · intro buf len s hs
    exact ⟨CursorInv_of_FrameKept _ _ (FrameKept_uart_send buf len s) hs,
      FrameKept_uart_send buf len s⟩
  · intro fuel s s' h hs
    exact ⟨CursorInv_of_FrameKept _ _ (FrameKept_uart_rx fuel s s' h) hs,
      FrameKept_uart_rx fuel s s' h⟩
  · intro fuel s s' h hs
    exact ⟨CursorInv_of_FrameKept _ _ (FrameKept_uart_tx fuel s s' h) hs,
      FrameKept_uart_tx fuel s s' h⟩
  · intro fuel vector s s' h hs
    exact ⟨CursorInv_of_FrameKept _ _ (FrameKept_uart_irq_interrupt fuel vector s s' h) hs,
      FrameKept_uart_irq_interrupt fuel vector s s' h⟩

/-- C19, instance: the invariant holds after the drain of `armedState`. -/
theorem cursor_bounds_invariant_witness :
    CursorInv ((uart_tx 3 armedState).getD armedState) :=
  (cursor_bounds_invariant.2.2.2.2.2.1 3 armedState ((uart_tx 3 armedState).getD armedState)
    rfl ((cursor_bounds_invariant.2.2.2.1 [65] 1 (init_arm_uart_bufs bootState)
      (cursor_bounds_invariant.1 bootState)).1)).1

/-! ## C20: register regions -/

/-- C20, the code at the addresses it binds: after init_arm_uart_bufs, from every prior
state, the seven register regions are not pairwise disjoint. The 4-byte control
register at 0x80030000 and the 4-byte status register at 0x80030002 share two bytes,
and the status register contains the byte of tx_data at 0x80030004; the six registers
other than status are pairwise disjoint. -/
theorem register_regions_overlap (s : State) :
    registerRegions (init_arm_uart_bufs s) =
      [ { addr := 0x80030000, width := 4 }, { addr := 0x80030002, width := 4 },
        { addr := 0x80030004, width := 1 }, { addr := 0x80030006, width := 1 },
        { addr := 0x800a002c, width := 1 }, { addr := 0x800a0030, width := 1 },
        { addr := 0x800a0034, width := 1 } ] ∧
    ¬ (registerRegions (init_arm_uart_bufs s)).Pairwise (fun a b => a.overlaps b = false) ∧
    Region.overlaps { addr := 0x80030000, width := 4 } { addr := 0x80030002, width := 4 }
      = true ∧
    Region.overlaps { addr := 0x80030002, width := 4 } { addr := 0x80030004, width := 1 }
      = true ∧
    ((registerRegions (init_arm_uart_bufs s)).eraseIdx 1).Pairwise
      (fun a b => a.overlaps b = false) := by
  have e : registerRegions (init_arm_uart_bufs s) =
      [ { addr := 0x80030000, width := 4 }, { addr := 0x80030002, width := 4 },
        { addr := 0x80030004, width := 1 }, { addr := 0x80030006, width := 1 },
        { addr := 0x800a002c, width := 1 }, { addr := 0x800a0030, width := 1 },
        { addr := 0x800a0034, width := 1 } ] := rfl
  rw [e]
  refine ⟨rfl, ?_, ?_, ?_, ?_⟩ <;> decide

/-! ## C4: preemption inside a push and inside a pop -/

/-- C4, the code at the failing input: the application has sent "A" and is inside
`uart_send("B", 1)`, between `next_ptr(TX_FIFO)` and the store of the byte, when the
transmit interrupt runs (`midSendState`). The handler pops "A" and then, because the
write cursor is already advanced, the slot that does not hold "B" yet: it writes 65
and the stale byte 0 to the TX data register. The application then stores 66, finishes
uart_send and the next transmit interrupt finds the fifo empty. One push stream
(65, 66) interleaved with one pop stream, two bytes pushed: the successful pops return
65 and 0, byte 66 is dropped (it lies in storage behind the read cursor) and a byte
that was never pushed is transmitted. -/
theorem spsc_preempted_send_loses_byte :
    ∃ s2 s4,
      uart_irq_interrupt 5 0 midSendState = some s2 ∧
      s2.tx_written = [65, 0] ∧
      uart_irq_interrupt 5 0
        (uart_send [] 0 (store (next_ptr TX_FIFO armedState).1 66 s2)).2 = some s4 ∧
      s4.tx_written = [65, 0] ∧
      (s4.arm_uart_bufs TX_FIFO).read_ptr = (s4.arm_uart_bufs TX_FIFO).write_ptr ∧
      s4.mem (next_ptr TX_FIFO armedState).1 = 66 := by
  refine ⟨(uart_irq_interrupt 5 0 midSendState).getD midSendState,
    (uart_irq_interrupt 5 0
      (uart_send [] 0 (store (next_ptr TX_FIFO armedState).1 66
        ((uart_irq_interrupt 5 0 midSendState).getD midSendState))).2).getD midSendState,
    rfl, ?_, rfl, ?_, ?_, ?_⟩ <;> decide

/-- The pop is not atomic either: the application calls bufRead on the empty receive
fifo of `rxState` and has found the cursors equal when the receive interrupt stores
"XY"; the empty branch then clears the slot at the read cursor, which now holds "X".
The next two reads return (1, 0) and (1, 89): byte 88 is lost. -/
theorem read_preempted_by_fill_clears_byte :
    ∃ s1, uart_rx 3 rxState = some s1 ∧
      (pops RX_FIFO 2 s1).1 = [(1, 88), (1, 89)] ∧
      (pops RX_FIFO 2 (store (rxState.arm_uart_bufs RX_FIFO).read_ptr 0 s1)).1 =
        [(1, 0), (1, 89)] := by
  refine ⟨(uart_rx 3 rxState).getD rxState, rfl, ?_, ?_⟩ <;> decide
